import Mathlib

/-!
# Verification of the predictive-maintenance evidence pipeline

Shallow embedding of the algorithmic core of the repository:

* `app/core/fusion.py` — weighted late fusion and the deterministic
  explanation template (`fuse_and_explain`, `_risk_from_prob`);
* `app/core/tools.py` — `get_risk_threshold_label`;
* `app/core/service_age_node.py` — the maintenance-compliance loop;
* `app/core/feature_node.py` — per-sensor adaptive baseline statistics;
* `app/core/orchestrator.py` — the per-stage shallow merge with
  re-assertion of the two protected cross-cutting fields;
* `app/utils/toon.py` — the TOON codec (encode/decode, key aliasing,
  nesting-aware splitting, opportunistic numeric parsing).

Python floats are modelled as exact rationals (`ℚ`); real-valued results of
the baseline engine (which divides by a standard deviation, an irrational
square root) live in `ℝ`.  Machine strings are modelled as `List Char`.
-/

namespace PMA

/-! ## Risk labels — `fusion.py::_risk_from_prob`, `tools.py::get_risk_threshold_label` -/

/-- `app/schemas.py::RiskLevel` — ordered categorical risk label. -/
inductive RiskLevel where
  | low
  | medium
  | high
  | critical
deriving DecidableEq, Repr

/-- The string value carried by each `RiskLevel` enum member. -/
def RiskLevel.str : RiskLevel → String
  | .low => "low"
  | .medium => "medium"
  | .high => "high"
  | .critical => "critical"

/-- Band index, for stating monotonicity (`low < medium < high < critical`). -/
def RiskLevel.rank : RiskLevel → Nat
  | .low => 0
  | .medium => 1
  | .high => 2
  | .critical => 3

/-- `fusion.py::_risk_from_prob` (lines 32-39). -/
def riskFromProb (p : ℚ) : RiskLevel :=
  if p ≥ 85/100 then .critical
  else if p ≥ 60/100 then .high
  else if p ≥ 35/100 then .medium
  else .low

/-- `tools.py::get_risk_threshold_label` (lines 21-29); returns the
`risk_label` string of the result dict. -/
def get_risk_threshold_label (fused_probability : ℚ) : String :=
  if fused_probability ≥ 85/100 then "critical"
  else if fused_probability ≥ 60/100 then "high"
  else if fused_probability ≥ 35/100 then "medium"
  else "low"

/-! ## Late fusion — `fusion.py::fuse_and_explain` -/

/-- The five fused modalities of `fusion.py` (lines 79-98). -/
inductive Modality5 where
  | sensor
  | vision
  | history
  | serviceAge
  | transactional
deriving DecidableEq, Repr

def allModalities : List Modality5 :=
  [.sensor, .vision, .history, .serviceAge, .transactional]

/-- The `fusion_weights` dict literal of `fusion.py` lines 79-85. -/
def nominalWeight : Modality5 → ℚ
  | .sensor => 8/10
  | .vision => 2/10
  | .history => 1/10
  | .serviceAge => 2/10
  | .transactional => 2/10

/-- `total_weight = sum(fusion_weights.values())` (line 87). -/
def totalWeight : ℚ :=
  nominalWeight .sensor + nominalWeight .vision + nominalWeight .history +
    nominalWeight .serviceAge + nominalWeight .transactional

/-- Lines 88-89: weights are divided by their sum when that sum is not 1. -/
def normalizedWeight (m : Modality5) : ℚ :=
  if totalWeight ≠ 1 then nominalWeight m / totalWeight else nominalWeight m

/-- The fields of `schemas.py::VisionResult` that fusion reads. -/
structure VisionResultM where
  visual_risk_score : ℚ := 0
  has_leaks : Bool := false
  has_cracks : Bool := false
deriving DecidableEq, Repr

/-- The fields of `schemas.py::HistoryResult` that fusion reads. -/
structure HistoryResultM where
  overdue_tasks : List String := []
deriving DecidableEq, Repr

/-- The slice of `schemas.py::AgentState` read by `fuse_and_explain`.
`service_age_risk_score` and `transactional_risk_score` are read through
`getattr(state, ..., 0.0)`, hence optional with default 0. -/
structure FusionState where
  sensor_risk_score : ℚ := 0
  vision_result : Option VisionResultM := none
  history_result : Option HistoryResultM := none
  history_risk_score : Option ℚ := none
  service_age_risk_score : Option ℚ := none
  transactional_risk_score : Option ℚ := none
  triggered_sensors : List String := []
deriving DecidableEq, Repr

/-- `sensor_score = float(getattr(state, "sensor_risk_score", 0.0))` (line 50). -/
def sensorScore (st : FusionState) : ℚ := st.sensor_risk_score

/-- `vision_score = getattr(vision, "visual_risk_score", 0.0) if vision else 0.0` (line 73). -/
def visionScore (st : FusionState) : ℚ :=
  match st.vision_result with
  | some v => v.visual_risk_score
  | none => 0

/-- `history_score = (history_score_val or 0.0)` (lines 74-75). -/
def historyScore (st : FusionState) : ℚ := st.history_risk_score.getD 0

/-- `service_age_score = float(getattr(state, "service_age_risk_score", 0.0))` (line 63). -/
def serviceAgeScore (st : FusionState) : ℚ := st.service_age_risk_score.getD 0

/-- `transactional_score = float(getattr(state, "transactional_risk_score", 0.0))` (line 64). -/
def transactionalScore (st : FusionState) : ℚ := st.transactional_risk_score.getD 0

/-- Dispatch a modality to its gathered score. -/
def scoreOf (st : FusionState) : Modality5 → ℚ
  | .sensor => sensorScore st
  | .vision => visionScore st
  | .history => historyScore st
  | .serviceAge => serviceAgeScore st
  | .transactional => transactionalScore st

/-- `fused_prob` — the weighted sum of `fusion.py` lines 92-98. -/
def fusedProb (st : FusionState) : ℚ :=
  normalizedWeight .sensor * sensorScore st +
  normalizedWeight .vision * visionScore st +
  normalizedWeight .history * historyScore st +
  normalizedWeight .serviceAge * serviceAgeScore st +
  normalizedWeight .transactional * transactionalScore st

/-- The report's `status_label` (lines 106-108): the tools label of the
fused probability. -/
def fusionRiskLabel (st : FusionState) : String :=
  get_risk_threshold_label (fusedProb st)

/-- The deterministic explanation of `fusion.py` lines 189-207, modelled
structurally: the base sentence always cites every modality with its weight
and score; `explanationExtras` lists the extra clauses appended after it. -/
def explanationCitedModalities (_st : FusionState) : List Modality5 :=
  allModalities

/-- The optional clauses appended to the explanation (lines 197-206). -/
inductive FusionClause where
  | leakClause
  | historyOverdueClause
  | serviceAgeClause
  | transactionalClause
  | noRiskClause
deriving DecidableEq, Repr

/-- The appended-clause sequence of `fusion.py` lines 197-206, in source
order.  The final clause fires when every gathered score is (Python-)falsy,
i.e. equal to 0. -/
def explanationExtras (st : FusionState) : List FusionClause :=
  (if (match st.vision_result with | some v => v.has_leaks | none => false)
    then [.leakClause] else []) ++
  (if (match st.history_result with | some h => h.overdue_tasks | none => []) ≠ []
    then [.historyOverdueClause] else []) ++
  (if serviceAgeScore st > 1/2 then [.serviceAgeClause] else []) ++
  (if transactionalScore st > 1/2 then [.transactionalClause] else []) ++
  (if sensorScore st = 0 ∧ visionScore st = 0 ∧ historyScore st = 0 ∧
      serviceAgeScore st = 0 ∧ transactionalScore st = 0
    then [.noRiskClause] else [])

/-! ## Maintenance compliance — `service_age_node.py` (lines 71-96)

The relational store is modelled at the collaborator interface of the
`work_done_logs` query (`ORDER BY timestamp DESC, hours_at_service DESC
LIMIT 1`): a lookup returning the `hours_at_service` of the most recent
log entry for a task, or `none` when the task was never logged. -/

/-- A `service_schedules` row (`task_name`, `interval_hours`). -/
structure SchedTask where
  task_name : String
  interval_hours : Int
deriving DecidableEq, Repr

/-- One element of the `overdue_tasks` output list (lines 90-96). -/
structure OverdueTask where
  task_name : String
  overdue_hours : Int
  interval_hours : Int
  last_done : Int
  current_total_hours : Int
deriving DecidableEq, Repr

/-- Lines 82-87: `last_done = log_row[0]` when a row exists, else `0`. -/
def lastDone (logLookup : String → Option Int) (task_name : String) : Int :=
  (logLookup task_name).getD 0

/-- The record appended for an overdue task (lines 90-96). -/
def overdueRecord (current_total_hours : Int) (logLookup : String → Option Int)
    (t : SchedTask) : OverdueTask :=
  { task_name := t.task_name
    overdue_hours := (current_total_hours - lastDone logLookup t.task_name) - t.interval_hours
    interval_hours := t.interval_hours
    last_done := lastDone logLookup t.task_name
    current_total_hours := current_total_hours }

/-- The scheduled-task loop of `service_age_node` (lines 71-96): a task is
reported iff `overdue_hours = (current - last_done) - interval > 0`. -/
def serviceAgeOverdueTasks (current_total_hours : Int) (tasks : List SchedTask)
    (logLookup : String → Option Int) : List OverdueTask :=
  tasks.filterMap fun t =>
    let overdue_hours := (current_total_hours - lastDone logLookup t.task_name) - t.interval_hours
    if overdue_hours > 0 then some (overdueRecord current_total_hours logLookup t) else none

/-! ## Orchestrator merge — `orchestrator.py` stage wrappers

Each wrapper does `merged = dict(state); merged.update(result)` and then
re-asserts `manual_context` and `anomaly_query` when they are absent from
the merge but present in the incoming state (e.g. lines 140-151, 204-212).
State dicts are modelled as association lists with Python dict-update
semantics (overwrite in place, append when new). -/

/-- Python `d[k] = v` on a dict modelled as an ordered association list:
overwrite in place when the key exists, append otherwise. -/
def dictAssign {κ α : Type} [DecidableEq κ] : List (κ × α) → κ → α → List (κ × α)
  | [], k, v => [(k, v)]
  | (k0, v0) :: rest, k, v =>
    if k0 = k then (k0, v) :: rest else (k0, v0) :: dictAssign rest k v

/-- Python `merged.update(result)`: assign every pair of `result` in order. -/
def dictUpdate {α : Type} (d u : List (String × α)) : List (String × α) :=
  u.foldl (fun acc kv => dictAssign acc kv.1 kv.2) d

/-- Python `k in d`. -/
def dictHasKey {α : Type} (d : List (String × α)) (k : String) : Bool :=
  d.any fun kv => kv.1 = k

/-- Python `d[k]` as an option. -/
def dictGet {α : Type} (d : List (String × α)) (k : String) : Option α :=
  (d.find? fun kv => kv.1 = k).map Prod.snd

/-- Re-assert one protected field: `if k not in merged and k in state:
merged[k] = state[k]`. -/
def reassertField {α : Type} (state merged : List (String × α)) (k : String) :
    List (String × α) :=
  if ¬ dictHasKey merged k ∧ dictHasKey state k then
    match dictGet state k with
    | some v => dictAssign merged k v
    | none => merged
  else merged

/-- The shallow merge every stage wrapper performs, with the two protected
cross-cutting fields re-asserted afterwards. -/
def stageMerge {α : Type} (state result : List (String × α)) : List (String × α) :=
  let merged := dictUpdate state result
  let merged := reassertField state merged "manual_context"
  reassertField state merged "anomaly_query"

/-! ## Baseline statistics — `feature_node.py` (lines 114-130)

Per-sensor statistics over the historical series.  Sensor columns are
modelled as `List (Option ℚ)` (nullable values); `drop_nulls` keeps the
non-null entries.  The polars `quantile(0.95)` (default "nearest"
interpolation) is modelled as the sorted value at the rounded rank; its
value is not relied on by any claim.  `Series.std` is the sample standard
deviation (`ddof=1`), the square root of `sampleVariance`. -/

/-- `vals = df[sensor].drop_nulls()` (line 115). -/
def dropNulls (vals : List (Option ℚ)) : List ℚ := vals.filterMap id

/-- Arithmetic mean (`vals.mean()`). -/
def qmean (vals : List ℚ) : ℚ := vals.sum / vals.length

/-- `vals[-100:].mean() if len(vals) >= 100 else vals.mean()` (line 125). -/
def rollingMean (vals : List ℚ) : ℚ :=
  if 100 ≤ vals.length then qmean (vals.drop (vals.length - 100)) else qmean vals

/-- Sample variance (`ddof=1`), the square of polars `Series.std`. -/
def sampleVariance (vals : List ℚ) : ℚ :=
  if vals.length < 2 then 0
  else ((vals.map fun x => (x - qmean vals) ^ 2).sum) / ((vals.length : ℚ) - 1)

/-- Model of polars `quantile(0.95)` with its default "nearest"
interpolation: the ascending-sorted value at rank `round(0.95 * (n-1))`. -/
def p95 (vals : List ℚ) : ℚ :=
  (vals.insertionSort (· ≤ ·)).getD
    (Int.toNat ⌊(95/100 : ℚ) * ((vals.length : ℚ) - 1) + 1/2⌋) 0

/-- Line 129: `float(vals.std()) if float(vals.std()) > 0 else 1.0`.
`std > 0` iff `sampleVariance > 0`. -/
noncomputable def globalStdFloored (vals : List ℚ) : ℝ :=
  if 0 < sampleVariance vals then Real.sqrt (sampleVariance vals) else 1

/-- Line 130: `drift = (rolling_mean - global_mean) / global_std`. -/
noncomputable def driftScore (vals : List ℚ) : ℝ :=
  ((rollingMean vals : ℝ) - (qmean vals : ℝ)) / globalStdFloored vals

/-- The per-sensor branch of `feature_node` (lines 114-130): with fewer
than 10 non-null samples every statistic is `None`; otherwise threshold,
rolling mean and drift are all populated. -/
noncomputable def sensorStats (column : List (Option ℚ)) :
    Option ℚ × Option ℚ × Option ℝ :=
  let vals := dropNulls column
  if vals.length < 10 then (none, none, none)
  else (some (p95 vals), some (rollingMean vals), some (driftScore vals))

/-! ## TOON codec — `app/utils/toon.py`

Strings are `List Char`.  Python values are the inductive `TVal`; float
values are carried as their literal text (`vfloat`) because IEEE formatting
(`%.4g`) is outside the model — no theorem below depends on a float value.
Python dicts are ordered association lists with `dictAssign` semantics. -/

abbrev Chars := List Char

/-- The dynamic value universe the codec operates on. -/
inductive TVal where
  | vnone
  | vbool (b : Bool)
  | vint (n : Int)
  | vstr (s : Chars)
  | vlist (xs : List TVal)
  | vdict (d : List (Chars × TVal))
  | vfloat (s : Chars)
deriving Repr

instance : Inhabited TVal := ⟨.vnone⟩

/-- ASCII whitespace stripped by Python `str.strip()`. -/
def isPyWS (c : Char) : Bool :=
  c = ' ' ∨ c = '\t' ∨ c = '\n' ∨ c = '\r' ∨ c = Char.ofNat 11 ∨ c = Char.ofNat 12

/-- Python `str.strip()` (ASCII fragment). -/
def pyStrip (s : Chars) : Chars :=
  ((s.dropWhile isPyWS).reverse.dropWhile isPyWS).reverse

def isUpperAZ (c : Char) : Bool := 'A' ≤ c ∧ c ≤ 'Z'
def isLowerAZ (c : Char) : Bool := 'a' ≤ c ∧ c ≤ 'z'
def isDigit09 (c : Char) : Bool := '0' ≤ c ∧ c ≤ '9'

/-- ASCII fragment of Python `str.upper` on one character. -/
def asciiToUpper (c : Char) : Char :=
  if isLowerAZ c then Char.ofNat (c.toNat - 32) else c

/-- ASCII fragment of Python `str.lower` on one character. -/
def asciiToLower (c : Char) : Char :=
  if isUpperAZ c then Char.ofNat (c.toNat + 32) else c

/-- Python `str.capitalize()`: first character upper-cased, rest lowered. -/
def pyCapitalize : Chars → Chars
  | [] => []
  | c :: rest => asciiToUpper c :: rest.map asciiToLower

/-- Python `str.split(sep)` for a one-character separator. -/
def splitOnChar (sep : Char) : Chars → List Chars
  | [] => [[]]
  | c :: rest =>
    match splitOnChar sep rest with
    | [] => [[c]]
    | h :: t => if c = sep then [] :: h :: t else (c :: h) :: t

/-- `toon.py::_snake_to_short_pascal` (lines 45-57): each `_`-segment is cut
to its first four characters and capitalized, then all are concatenated. -/
def snake_to_short_pascal (key : Chars) : Chars :=
  ((splitOnChar '_' key).map fun p =>
    if p.length ≤ 4 then pyCapitalize p else pyCapitalize (p.take 4)).flatten

theorem dropWhile_length_le (p : Char → Bool) (l : Chars) :
    (l.dropWhile p).length ≤ l.length := by
  induction l with
  | nil => simp
  | cons c t ih =>
    by_cases h : p c
    · simp only [List.dropWhile_cons, h, if_true]
      exact Nat.le_succ_of_le ih
    · simp [List.dropWhile_cons, h]

/-- `re.sub(r"(.)([A-Z][a-z]+)", r"\1_\2", s)`: left-to-right,
non-overlapping; `.` matches anything but a newline, the lowercase run is
maximal, and scanning resumes after each match.  The fuel argument only
bounds the recursion (each step shortens the input, so fuel equal to the
input length is exact); this keeps the definition kernel-reducible. -/
def camelSub1Aux : Nat → Chars → Chars
  | 0, s => s
  | _, [] => []
  | _, [c] => [c]
  | fuel + 1, c0 :: c1 :: rest =>
    if c0 ≠ '\n' ∧ isUpperAZ c1 ∧ rest.takeWhile isLowerAZ ≠ [] then
      c0 :: '_' :: c1 ::
        (rest.takeWhile isLowerAZ ++ camelSub1Aux fuel (rest.dropWhile isLowerAZ))
    else
      c0 :: camelSub1Aux fuel (c1 :: rest)

def camelSub1 (s : Chars) : Chars := camelSub1Aux s.length s

/-- `re.sub(r"([a-z0-9])([A-Z])", r"\1_\2", s)`: scanning resumes after the
matched uppercase character. -/
def camelSub2 : Chars → Chars
  | [] => []
  | [c] => [c]
  | c0 :: c1 :: rest =>
    if (isLowerAZ c0 ∨ isDigit09 c0) ∧ isUpperAZ c1 then
      c0 :: '_' :: c1 :: camelSub2 rest
    else
      c0 :: camelSub2 (c1 :: rest)

/-- `toon.py::_pascal_to_snake` (lines 60-63). -/
def pascal_to_snake (key : Chars) : Chars :=
  (camelSub2 (camelSub1 key)).map asciiToLower

/-- The key transformation a full encode/decode round trip applies. -/
def roundKey (key : Chars) : Chars := pascal_to_snake (snake_to_short_pascal key)

/-- Decimal digit character (`str(int)` digits). -/
def digitChar (d : Nat) : Char :=
  if d = 0 then '0' else if d = 1 then '1' else if d = 2 then '2'
  else if d = 3 then '3' else if d = 4 then '4' else if d = 5 then '5'
  else if d = 6 then '6' else if d = 7 then '7' else if d = 8 then '8' else '9'

/-- Decimal representation of a natural number, as Python `str` produces.
Fuel-based so the definition is kernel-reducible; any fuel above the input
is enough, and the fuel-0 branch is unreachable from `natRepr`. -/
def natReprAux : Nat → Nat → Chars
  | 0, _ => []
  | fuel + 1, n =>
    if n < 10 then [digitChar n]
    else natReprAux fuel (n / 10) ++ [digitChar (n % 10)]

def natRepr (n : Nat) : Chars := natReprAux (n + 1) n

/-- Python `str` on an int. -/
def intRepr (n : Int) : Chars :=
  if n < 0 then '-' :: natRepr n.natAbs else natRepr n.toNat

/-- `value is None or value == "" or value == [] or value == {}`
(`encode_dict` line 92): the pairs the encoder strips. -/
def isEmptyVal : TVal → Bool
  | .vnone => true
  | .vstr [] => true
  | .vlist [] => true
  | .vdict [] => true
  | _ => false

/-- Join with a one-character separator (`sep.join(parts)`). -/
def joinSep (sep : Char) : List Chars → Chars
  | [] => []
  | [x] => x
  | x :: xs => x ++ sep :: joinSep sep xs

mutual
/-- `toon.py::_encode_value` (lines 70-85). -/
def encode_value : TVal → Chars
  | .vnone => []
  | .vbool b => if b then ['1'] else ['0']
  | .vint n => intRepr n
  | .vfloat s => s
  | .vstr s => s
  | .vlist xs => joinSep '~' (encodeList xs)
  | .vdict d => '(' :: (joinSep '|' (encodeEntries d) ++ [')'])

/-- Elementwise encoding of a list value. -/
def encodeList : List TVal → List Chars
  | [] => []
  | v :: vs => encode_value v :: encodeList vs

/-- The `parts` list built by `encode_dict` (lines 88-96): empty values are
stripped, every kept pair becomes `ShortKey ++ ":" ++ encoded value`. -/
def encodeEntries : List (Chars × TVal) → List Chars
  | [] => []
  | (k, v) :: rest =>
    if isEmptyVal v then encodeEntries rest
    else (snake_to_short_pascal k ++ ':' :: encode_value v) :: encodeEntries rest
end

/-- `toon.py::encode_dict` (alias_keys left at its default `True`). -/
def encode_dict (data : List (Chars × TVal)) : Chars :=
  joinSep '|' (encodeEntries data)

/-- `toon.py::_split_respecting_nesting` (lines 160-179): split on `|` at
zero parenthesis depth; the running depth is an integer, exactly as the
Python counter. -/
def splitRN : Chars → Int → Chars → List Chars
  | [], _, current => if current = [] then [] else [current]
  | ch :: rest, depth, current =>
    if ch = '(' then splitRN rest (depth + 1) (current ++ [ch])
    else if ch = ')' then splitRN rest (depth - 1) (current ++ [ch])
    else if ch = '|' ∧ depth = 0 then current :: splitRN rest depth []
    else splitRN rest depth (current ++ [ch])

def split_respecting_nesting (s : Chars) : List Chars := splitRN s 0 []

/-- Digit run with Python's underscore-grouping rule (`1_000` is a valid
`int()` literal; `1__0`, `1_`, `_1` are not), accumulating the value. -/
def usDigits : Chars → Nat → Option Nat
  | [], acc => some acc
  | c :: rest, acc =>
    if isDigit09 c then usDigits rest (acc * 10 + (c.toNat - '0'.toNat))
    else if c = '_' then
      match rest with
      | [] => none
      | d :: rest2 =>
        if isDigit09 d then usDigits rest2 (acc * 10 + (d.toNat - '0'.toNat))
        else none
    else none

/-- A non-empty digit run (with underscore grouping) and its value. -/
def pyDigits : Chars → Option Nat
  | [] => none
  | c :: rest =>
    if isDigit09 c then usDigits rest (c.toNat - '0'.toNat) else none

/-- Model of Python `int(str)` (ASCII fragment): strip whitespace, optional
sign, decimal digits with underscore grouping. -/
def pyIntParse (s : Chars) : Option Int :=
  match pyStrip s with
  | '+' :: r => (pyDigits r).map Int.ofNat
  | '-' :: r => (pyDigits r).map fun n => -(n : Int)
  | r => (pyDigits r).map Int.ofNat

/-- Split at the first exponent marker `e`/`E`. -/
def splitAtExp : Chars → Chars × Option Chars
  | [] => ([], none)
  | c :: rest =>
    if c = 'e' ∨ c = 'E' then ([], some rest)
    else
      match splitAtExp rest with
      | (m, e) => (c :: m, e)

/-- Split at the first `.`. -/
def splitAtDot : Chars → Chars × Option Chars
  | [] => ([], none)
  | c :: rest =>
    if c = '.' then ([], some rest)
    else
      match splitAtDot rest with
      | (m, e) => (c :: m, e)

/-- Valid float mantissa: `d+`, `d+.`, `.d+` or `d+.d+` (underscore
grouping allowed inside each digit run, at most one dot). -/
def mantOK (m : Chars) : Bool :=
  match splitAtDot m with
  | (pre, none) => (pyDigits pre).isSome
  | (pre, some post) =>
    if post.contains '.' then false
    else (pre = [] ∧ (pyDigits post).isSome) ∨
      ((pyDigits pre).isSome ∧ post = []) ∨
      ((pyDigits pre).isSome ∧ (pyDigits post).isSome)

/-- Valid exponent part: optional sign then a digit run. -/
def expPartOK : Chars → Bool
  | '+' :: r => (pyDigits r).isSome
  | '-' :: r => (pyDigits r).isSome
  | r => (pyDigits r).isSome

/-- Model of "Python `float(str)` succeeds" (ASCII fragment): strip, optional
sign, then `inf`/`infinity`/`nan` (case-insensitive) or mantissa with
optional exponent. -/
def pyFloatParseable (s : Chars) : Bool :=
  let t := pyStrip s
  let t := match t with
    | '+' :: r => r
    | '-' :: r => r
    | r => r
  let tl := t.map asciiToLower
  if tl = "inf".toList ∨ tl = "infinity".toList ∨ tl = "nan".toList then true
  else
    match splitAtExp t with
    | (m, none) => mantOK m
    | (m, some ep) => mantOK m ∧ expPartOK ep

/-- `toon.py::_try_numeric` (lines 115-124): int, then float, then string.
A successful float parse is recorded as `vfloat` of the literal text. -/
def try_numeric (s : Chars) : TVal :=
  match pyIntParse s with
  | some n => .vint n
  | none => if pyFloatParseable s then .vfloat s else .vstr s

/-- Split a pair at the first `:` (`pair.partition(KV_SEP)`); `none` when
the pair has no colon and is skipped. -/
def breakColon : Chars → Chars × Option Chars
  | [] => ([], none)
  | c :: rest =>
    if c = ':' then ([], some rest)
    else
      match breakColon rest with
      | (a, b) => (c :: a, b)

/-- `toon.py::_decode_value` (lines 127-137), parameterized by the decoder
used for a nested dict. -/
def decode_value (dec : Chars → List (Chars × TVal)) (raw : Chars) : TVal :=
  if raw = [] then .vnone
  else if raw.head? = some '(' ∧ raw.getLast? = some ')' then
    .vdict (dec ((raw.drop 1).dropLast))
  else if raw.contains '~' then
    .vlist ((splitOnChar '~' raw).map try_numeric)
  else try_numeric raw

/-- `toon.py::decode` (lines 140-157) with a fuel bound on nesting depth.
Each nested step strips one bracket pair, so any fuel above the input
length is enough; the fuel-0 branch is unreachable from `decode`. -/
def decodeF : Nat → Chars → List (Chars × TVal)
  | 0, _ => []
  | fuel + 1, s =>
    if pyStrip s = [] then []
    else
      (split_respecting_nesting s).foldl
        (fun result pair =>
          match breakColon pair with
          | (_, none) => result
          | (key, some value) =>
            dictAssign result (pascal_to_snake (pyStrip key))
              (decode_value (decodeF fuel) (pyStrip value)))
        []

/-- `toon.py::decode`. -/
def decode (s : Chars) : List (Chars × TVal) := decodeF (s.length + 1) s

/-! ## Codec round-trip machinery

The well-behaved input class for the round-trip theorem, together with the
key/value transformation a round trip provably applies.  All predicates are
`Bool`-valued so concrete witnesses evaluate by `decide`. -/

/-- ASCII letter or digit. -/
def alnumChar (c : Char) : Bool := isLowerAZ c || isUpperAZ c || isDigit09 c

/-- A string value that survives the round trip verbatim: non-empty,
printable ASCII without the reserved separator/bracket characters, no
whitespace at either end, and not parseable as an int or float (else
`_try_numeric` would convert it). -/
def goodStr (s : Chars) : Bool :=
  !s.isEmpty &&
  s.all (fun c => decide (32 ≤ c.toNat) && decide (c.toNat ≤ 126) &&
    c != '|' && c != '~' && c != '(' && c != ')') &&
  (s.head?.all fun c => !isPyWS c) &&
  (s.getLast?.all fun c => !isPyWS c) &&
  (pyIntParse s).isNone && !pyFloatParseable s

/-- A key whose short-Pascal alias is a non-empty run of letters/digits
(true of every snake_case identifier key). -/
def goodKey (k : Chars) : Bool :=
  !(snake_to_short_pascal k).isEmpty && (snake_to_short_pascal k).all alnumChar

/-- Scalar values of the round-trip class. -/
def goodScalar : TVal → Bool
  | .vint _ => true
  | .vbool _ => true
  | .vstr s => goodStr s
  | _ => false

/-- Values allowed inside a nested record (and as non-dict top values):
scalars, or lists of at least two scalars (a singleton list encodes without
the list separator and decodes as its element). -/
def goodInner : TVal → Bool
  | .vlist xs => decide (2 ≤ xs.length) && xs.all goodScalar
  | v => goodScalar v

/-- One nested record level: non-empty, good keys and inner values,
distinct round-tripped keys. -/
def goodFlat (d : List (Chars × TVal)) : Bool :=
  !d.isEmpty && d.all (fun kv => goodKey kv.1 && goodInner kv.2) &&
  decide (d.map (fun kv => roundKey kv.1)).Nodup

/-- Top-level values: inner values or one nested record. -/
def goodTop : TVal → Bool
  | .vdict d => goodFlat d
  | v => goodInner v

/-- The round-trip class of records: good keys and top values, distinct
round-tripped keys. -/
def goodRecord (r : List (Chars × TVal)) : Bool :=
  r.all (fun kv => goodKey kv.1 && goodTop kv.2) &&
  decide (r.map (fun kv => roundKey kv.1)).Nodup

/-- What the round trip does to a scalar: booleans come back as ints. -/
def roundScalar : TVal → TVal
  | .vbool b => .vint (if b then 1 else 0)
  | v => v

/-- What the round trip does to an inner value. -/
def roundInner : TVal → TVal
  | .vlist xs => .vlist (xs.map roundScalar)
  | v => roundScalar v

/-- What the round trip does to a top-level value. -/
def roundVal : TVal → TVal
  | .vdict d => .vdict (d.map fun kv => (roundKey kv.1, roundInner kv.2))
  | v => roundInner v

/-- What the round trip does to a record. -/
def roundRecord (r : List (Chars × TVal)) : List (Chars × TVal) :=
  r.map fun kv => (roundKey kv.1, roundVal kv.2)

/-- No boolean anywhere in a scalar. -/
def scalarNotBool : TVal → Bool
  | .vbool _ => false
  | _ => true

/-- No boolean anywhere in an inner value. -/
def boolFreeInner : TVal → Bool
  | .vlist xs => xs.all scalarNotBool
  | v => scalarNotBool v

/-- No boolean anywhere in a top-level value. -/
def boolFreeVal : TVal → Bool
  | .vdict d => d.all fun kv => boolFreeInner kv.2
  | v => boolFreeInner v

/-- No boolean anywhere in a record. -/
def boolFreeRecord (r : List (Chars × TVal)) : Bool :=
  r.all fun kv => boolFreeVal kv.2

/-- Value transformation for the boolean-free round trip: every value is
kept verbatim, only nested keys are re-aliased. -/
def preserveVal : TVal → TVal
  | .vdict d => .vdict (d.map fun kv => (roundKey kv.1, kv.2))
  | v => v

/-! ### Character-class facts -/

theorem alnum_spec {c : Char} (h : alnumChar c = true) :
    c ≠ '|' ∧ c ≠ '~' ∧ c ≠ '(' ∧ c ≠ ')' ∧ c ≠ ':' ∧ isPyWS c = false := by
  refine ⟨?_, ?_, ?_, ?_, ?_, ?_⟩
  · rintro rfl; exact absurd h (by decide)
  · rintro rfl; exact absurd h (by decide)
  · rintro rfl; exact absurd h (by decide)
  · rintro rfl; exact absurd h (by decide)
  · rintro rfl; exact absurd h (by decide)
  · cases hb : isPyWS c with
    | false => rfl
    | true =>
      exfalso
      simp only [isPyWS, decide_eq_true_eq] at hb
      rcases hb with rfl | rfl | rfl | rfl | rfl | rfl <;> exact absurd h (by decide)

theorem digit_spec {c : Char} (h : isDigit09 c = true) :
    c ≠ '|' ∧ c ≠ '~' ∧ c ≠ '(' ∧ c ≠ ')' ∧ isPyWS c = false := by
  refine ⟨?_, ?_, ?_, ?_, ?_⟩
  · rintro rfl; exact absurd h (by decide)
  · rintro rfl; exact absurd h (by decide)
  · rintro rfl; exact absurd h (by decide)
  · rintro rfl; exact absurd h (by decide)
  · cases hb : isPyWS c with
    | false => rfl
    | true =>
      exfalso
      simp only [isPyWS, decide_eq_true_eq] at hb
      rcases hb with rfl | rfl | rfl | rfl | rfl | rfl <;> exact absurd h (by decide)

/-! ### `pyStrip` -/

theorem pyStrip_eq_self {s : Chars}
    (h1 : (s.head?.all fun c => !isPyWS c) = true)
    (h2 : (s.getLast?.all fun c => !isPyWS c) = true) :
    pyStrip s = s := by
  unfold pyStrip
  cases s with
  | nil => rfl
  | cons c t =>
    simp only [List.head?_cons, Option.all_some, Bool.not_eq_eq_eq_not, Bool.not_true] at h1
    rw [List.dropWhile_cons, if_neg (by simp [h1])]
    have hrev : ((c :: t).reverse.head?.all fun x => !isPyWS x) = true := by
      rw [List.head?_reverse]
      exact h2
    cases hr : (c :: t).reverse with
    | nil => simp at hr
    | cons d u =>
      rw [hr] at hrev
      simp only [List.head?_cons, Option.all_some, Bool.not_eq_eq_eq_not, Bool.not_true] at hrev
      rw [List.dropWhile_cons, if_neg (by simp [hrev]), ← hr, List.reverse_reverse]

/-! ### Parsing the canonical integer representation -/

theorem digitChar_spec {d : Nat} (h : d < 10) :
    isDigit09 (digitChar d) = true ∧ (digitChar d).toNat - '0'.toNat = d := by
  interval_cases d <;> exact ⟨by decide, by decide⟩

theorem usDigits_all_digits {s : Chars} (h : ∀ c ∈ s, isDigit09 c = true) (acc : Nat) :
    usDigits s acc = some (s.foldl (fun a c => a * 10 + (c.toNat - '0'.toNat)) acc) := by
  induction s generalizing acc with
  | nil => rfl
  | cons c t ih =>
    have hc := h c (by simp)
    rw [List.foldl_cons]
    unfold usDigits
    rw [if_pos hc]
    exact ih (fun x hx => h x (by simp [hx])) _

theorem natReprAux_congr : ∀ {f1 : Nat} {f2 n : Nat}, n < f1 → n < f2 →
    natReprAux f1 n = natReprAux f2 n := by
  intro f1
  induction f1 with
  | zero => intro f2 n h1 _; omega
  | succ f ih =>
    intro f2 n h1 h2
    cases f2 with
    | zero => omega
    | succ g =>
      simp only [natReprAux]
      by_cases h10 : n < 10
      · rw [if_pos h10, if_pos h10]
      · rw [if_neg h10, if_neg h10]
        have hd : n / 10 < n := Nat.div_lt_self (by omega) (by omega)
        congr 1
        exact ih (by omega) (by omega)

theorem natRepr_unfold (n : Nat) :
    natRepr n = if n < 10 then [digitChar n]
      else natRepr (n / 10) ++ [digitChar (n % 10)] := by
  by_cases h10 : n < 10
  · rw [if_pos h10]
    unfold natRepr
    simp only [natReprAux]
    rw [if_pos h10]
  · rw [if_neg h10]
    show natReprAux (n + 1) n = natReprAux (n / 10 + 1) (n / 10) ++ [digitChar (n % 10)]
    have hd : n / 10 < n := Nat.div_lt_self (by omega) (by omega)
    rw [show natReprAux (n + 1) n =
      (if n < 10 then [digitChar n]
       else natReprAux n (n / 10) ++ [digitChar (n % 10)]) from rfl]
    rw [if_neg h10]
    congr 1
    exact natReprAux_congr (by omega) (by omega)

theorem natRepr_all_digits (n : Nat) : ∀ c ∈ natRepr n, isDigit09 c = true := by
  induction n using Nat.strong_induction_on with
  | _ n ih =>
    intro c hc
    rw [natRepr_unfold] at hc
    by_cases h : n < 10
    · rw [if_pos h] at hc
      simp only [List.mem_singleton] at hc
      subst hc
      exact (digitChar_spec h).1
    · rw [if_neg h] at hc
      rcases List.mem_append.mp hc with hm | hm
      · exact ih (n / 10) (Nat.div_lt_self (by omega) (by omega)) c hm
      · simp only [List.mem_singleton] at hm
        subst hm
        exact (digitChar_spec (Nat.mod_lt n (by omega))).1

theorem natRepr_ne_nil (n : Nat) : natRepr n ≠ [] := by
  rw [natRepr_unfold]
  by_cases h : n < 10
  · rw [if_pos h]; simp
  · rw [if_neg h]; simp

theorem natRepr_foldl (n : Nat) (acc : Nat) :
    (natRepr n).foldl (fun a c => a * 10 + (c.toNat - '0'.toNat)) acc =
      acc * 10 ^ (natRepr n).length + n := by
  induction n using Nat.strong_induction_on generalizing acc with
  | _ n ih =>
    rw [natRepr_unfold]
    by_cases h : n < 10
    · rw [if_pos h]
      simp only [List.foldl_cons, List.foldl_nil, List.length_singleton, pow_one]
      rw [(digitChar_spec h).2]
    · rw [if_neg h]
      rw [List.foldl_append, ih (n / 10) (Nat.div_lt_self (by omega) (by omega)) acc]
      simp only [List.foldl_cons, List.foldl_nil, List.length_append,
        List.length_singleton]
      rw [(digitChar_spec (Nat.mod_lt n (by omega))).2]
      rw [pow_succ]
      have := Nat.div_add_mod n 10
      ring_nf
      omega

theorem pyDigits_natRepr (n : Nat) : pyDigits (natRepr n) = some n := by
  cases hr : natRepr n with
  | nil => exact absurd hr (natRepr_ne_nil n)
  | cons c t =>
    have hall : ∀ x ∈ natRepr n, isDigit09 x = true := natRepr_all_digits n
    have hc : isDigit09 c = true := hall c (by rw [hr]; simp)
    simp only [pyDigits]
    rw [if_pos hc]
    rw [usDigits_all_digits (fun x hx => hall x (by rw [hr]; simp [hx]))]
    have := natRepr_foldl n 0
    rw [hr] at this
    simp only [List.foldl_cons, Nat.zero_mul, Nat.zero_add] at this
    rw [this]

theorem digit_not_sign {c : Char} (h : isDigit09 c = true) :
    c ≠ '+' ∧ c ≠ '-' := by
  constructor
  · rintro rfl; exact absurd h (by decide)
  · rintro rfl; exact absurd h (by decide)

theorem pyStrip_all_digits {s : Chars} (h : ∀ c ∈ s, isDigit09 c = true) :
    pyStrip s = s := by
  apply pyStrip_eq_self
  · cases hh : s.head? with
    | none => rfl
    | some c =>
      have := (digit_spec (h c (List.mem_of_mem_head? hh))).2.2.2.2
      simp [this]
  · cases hh : s.getLast? with
    | none => rfl
    | some c =>
      have := (digit_spec (h c (List.mem_of_mem_getLast? hh))).2.2.2.2
      simp [this]

/-- Reduce the sign match of `pyIntParse` when the head is not a sign. -/
theorem pyIntParse_no_sign {c : Char} {t : Chars}
    (hstrip : pyStrip (c :: t) = c :: t) (h1 : c ≠ '+') (h2 : c ≠ '-') :
    pyIntParse (c :: t) = (pyDigits (c :: t)).map Int.ofNat := by
  unfold pyIntParse
  rw [hstrip]
  split
  · rename_i heq
    simp only [List.cons.injEq] at heq
    exact absurd heq.1 h1
  · rename_i heq
    simp only [List.cons.injEq] at heq
    exact absurd heq.1 h2
  · rfl

/-- Reduce the sign match of `pyIntParse` on a leading minus. -/
theorem pyIntParse_dash {t : Chars} (hstrip : pyStrip ('-' :: t) = '-' :: t) :
    pyIntParse ('-' :: t) = (pyDigits t).map fun k => -(k : Int) := by
  unfold pyIntParse
  rw [hstrip]
  split
  · rename_i heq
    simp only [List.cons.injEq] at heq
    exact absurd heq.1 (by decide)
  · rename_i r heq
    simp only [List.cons.injEq] at heq
    rw [heq.2]
  · rename_i hne1 hne2
    exact absurd rfl (hne2 t)

theorem pyIntParse_intRepr (n : Int) : pyIntParse (intRepr n) = some n := by
  by_cases hneg : n < 0
  · have hstrip : pyStrip ('-' :: natRepr n.natAbs) = '-' :: natRepr n.natAbs := by
      apply pyStrip_eq_self
      · rw [List.head?_cons]
        decide
      · rw [show ('-' :: natRepr n.natAbs) = ['-'] ++ natRepr n.natAbs from rfl,
          List.getLast?_append_of_ne_nil _ (natRepr_ne_nil n.natAbs)]
        cases hh : (natRepr n.natAbs).getLast? with
        | none => rfl
        | some c =>
          have := (digit_spec (natRepr_all_digits n.natAbs c
            (List.mem_of_mem_getLast? hh))).2.2.2.2
          simp [this]
    unfold intRepr
    rw [if_pos hneg, pyIntParse_dash hstrip, pyDigits_natRepr]
    have habs : -(n.natAbs : Int) = n := by omega
    exact congrArg some habs
  · unfold intRepr
    rw [if_neg hneg]
    have hall := natRepr_all_digits n.toNat
    have hstrip : pyStrip (natRepr n.toNat) = natRepr n.toNat :=
      pyStrip_all_digits hall
    cases hr : natRepr n.toNat with
    | nil => exact absurd hr (natRepr_ne_nil _)
    | cons c t =>
      have hd : isDigit09 c = true := hall c (by rw [hr]; simp)
      rw [pyIntParse_no_sign (by rw [← hr]; exact hstrip)
        (digit_not_sign hd).1 (digit_not_sign hd).2]
      rw [← hr, pyDigits_natRepr]
      have htn : ((n.toNat : Int)) = n := Int.toNat_of_nonneg (by omega)
      exact congrArg some htn

/-! ### Shapes of encoded scalars -/

/-- The shape every encoded good scalar has: non-empty, free of the four
reserved delimiter characters, no whitespace at either end. -/
def ScalarEnc (s : Chars) : Prop :=
  s ≠ [] ∧ '(' ∉ s ∧ ')' ∉ s ∧ '|' ∉ s ∧ '~' ∉ s ∧
  (s.head?.all fun c => !isPyWS c) = true ∧
  (s.getLast?.all fun c => !isPyWS c) = true

theorem scalarEnc_of_digits {s : Chars} (hne : s ≠ [])
    (h : ∀ c ∈ s, isDigit09 c = true) : ScalarEnc s := by
  refine ⟨hne, ?_, ?_, ?_, ?_, ?_, ?_⟩
  · intro hm; exact (digit_spec (h _ hm)).2.2.1 rfl
  · intro hm; exact (digit_spec (h _ hm)).2.2.2.1 rfl
  · intro hm; exact (digit_spec (h _ hm)).1 rfl
  · intro hm; exact (digit_spec (h _ hm)).2.1 rfl
  · cases hh : s.head? with
    | none => rfl
    | some c => simp [(digit_spec (h c (List.mem_of_mem_head? hh))).2.2.2.2]
  · cases hh : s.getLast? with
    | none => rfl
    | some c => simp [(digit_spec (h c (List.mem_of_mem_getLast? hh))).2.2.2.2]

theorem scalarEnc_intRepr (n : Int) : ScalarEnc (intRepr n) := by
  unfold intRepr
  by_cases hneg : n < 0
  · rw [if_pos hneg]
    have hd := natRepr_all_digits n.natAbs
    have hmem : ∀ c ∈ ('-' :: natRepr n.natAbs), c = '-' ∨ isDigit09 c = true := by
      intro c hc
      rcases List.mem_cons.mp hc with rfl | hm
      · exact Or.inl rfl
      · exact Or.inr (hd c hm)
    refine ⟨by simp, ?_, ?_, ?_, ?_, ?_, ?_⟩
    · intro hm
      rcases hmem _ hm with he | hdig
      · exact absurd he (by decide)
      · exact (digit_spec hdig).2.2.1 rfl
    · intro hm
      rcases hmem _ hm with he | hdig
      · exact absurd he (by decide)
      · exact (digit_spec hdig).2.2.2.1 rfl
    · intro hm
      rcases hmem _ hm with he | hdig
      · exact absurd he (by decide)
      · exact (digit_spec hdig).1 rfl
    · intro hm
      rcases hmem _ hm with he | hdig
      · exact absurd he (by decide)
      · exact (digit_spec hdig).2.1 rfl
    · rw [List.head?_cons]
      decide
    · rw [show ('-' :: natRepr n.natAbs) = ['-'] ++ natRepr n.natAbs from rfl,
        List.getLast?_append_of_ne_nil _ (natRepr_ne_nil n.natAbs)]
      cases hh : (natRepr n.natAbs).getLast? with
      | none => rfl
      | some c => simp [(digit_spec (hd c (List.mem_of_mem_getLast? hh))).2.2.2.2]
  · rw [if_neg hneg]
    exact scalarEnc_of_digits (natRepr_ne_nil _) (natRepr_all_digits _)

theorem goodStr_spec {s : Chars} (h : goodStr s = true) :
    s ≠ [] ∧ (∀ c ∈ s, c ≠ '|' ∧ c ≠ '~' ∧ c ≠ '(' ∧ c ≠ ')') ∧
    (s.head?.all fun c => !isPyWS c) = true ∧
    (s.getLast?.all fun c => !isPyWS c) = true ∧
    pyIntParse s = none ∧ pyFloatParseable s = false := by
  simp only [goodStr, Bool.and_eq_true] at h
  obtain ⟨⟨⟨⟨⟨h1, h2⟩, h3⟩, h4⟩, h5⟩, h6⟩ := h
  refine ⟨by simpa using h1, ?_, h3, h4, by simpa using h5, by simpa using h6⟩
  intro c hc
  have hp := List.all_eq_true.mp h2 c hc
  simp only [Bool.and_eq_true, bne_iff_ne, decide_eq_true_eq] at hp
  exact ⟨hp.1.1.1.2, hp.1.1.2, hp.1.2, hp.2⟩

theorem scalarEnc_goodStr {s : Chars} (h : goodStr s = true) : ScalarEnc s := by
  obtain ⟨hne, hall, hh, hl, -, -⟩ := goodStr_spec h
  exact ⟨hne, fun hm => (hall _ hm).2.2.1 rfl, fun hm => (hall _ hm).2.2.2 rfl,
    fun hm => (hall _ hm).1 rfl, fun hm => (hall _ hm).2.1 rfl, hh, hl⟩

theorem scalarEnc_encode {v : TVal} (h : goodScalar v = true) :
    ScalarEnc (encode_value v) := by
  cases v with
  | vint n => exact scalarEnc_intRepr n
  | vbool b =>
    cases b
    · exact ⟨by simp [encode_value], by decide, by decide, by decide, by decide,
        by decide, by decide⟩
    · exact ⟨by simp [encode_value], by decide, by decide, by decide, by decide,
        by decide, by decide⟩
  | vstr s => exact scalarEnc_goodStr h
  | vnone => exact absurd h (by simp [goodScalar])
  | vlist xs => exact absurd h (by simp [goodScalar])
  | vdict d => exact absurd h (by simp [goodScalar])
  | vfloat s => exact absurd h (by simp [goodScalar])

theorem try_numeric_intRepr (n : Int) : try_numeric (intRepr n) = .vint n := by
  unfold try_numeric
  rw [pyIntParse_intRepr]

theorem try_numeric_goodStr {s : Chars} (h : goodStr s = true) :
    try_numeric s = .vstr s := by
  obtain ⟨-, -, -, -, hint, hfl⟩ := goodStr_spec h
  unfold try_numeric
  rw [hint, hfl]
  simp

theorem try_numeric_scalar {v : TVal} (h : goodScalar v = true) :
    try_numeric (encode_value v) = roundScalar v := by
  cases v with
  | vint n => exact try_numeric_intRepr n
  | vbool b => cases b <;> rfl
  | vstr s => exact try_numeric_goodStr h
  | vnone => exact absurd h (by simp [goodScalar])
  | vlist xs => exact absurd h (by simp [goodScalar])
  | vdict d => exact absurd h (by simp [goodScalar])
  | vfloat s => exact absurd h (by simp [goodScalar])

/-! ### Join/split inverses -/

theorem getLast?_cons_of_ne_nil' {a : Char} {l : Chars} (h : l ≠ []) :
    (a :: l).getLast? = l.getLast? := by
  rw [show a :: l = [a] ++ l from rfl, List.getLast?_append_of_ne_nil _ h]

theorem mem_joinSep {sep : Char} {c : Char} : ∀ {parts : List Chars},
    c ∈ joinSep sep parts → c = sep ∨ ∃ p ∈ parts, c ∈ p := by
  intro parts
  induction parts with
  | nil => intro h; simp [joinSep] at h
  | cons p rest ih =>
    intro h
    cases rest with
    | nil => exact Or.inr ⟨p, by simp, h⟩
    | cons q t =>
      rw [show joinSep sep (p :: q :: t) = p ++ sep :: joinSep sep (q :: t) from rfl] at h
      rcases List.mem_append.mp h with hm | hm
      · exact Or.inr ⟨p, by simp, hm⟩
      · rcases List.mem_cons.mp hm with rfl | hm2
        · exact Or.inl rfl
        · rcases ih hm2 with hs | ⟨r, hr, hcr⟩
          · exact Or.inl hs
          · exact Or.inr ⟨r, by simp [hr], hcr⟩

theorem joinSep_head? {sep : Char} {p : Chars} (rest : List Chars) (h : p ≠ []) :
    (joinSep sep (p :: rest)).head? = p.head? := by
  cases rest with
  | nil => rfl
  | cons q t =>
    rw [show joinSep sep (p :: q :: t) = p ++ sep :: joinSep sep (q :: t) from rfl]
    exact List.head?_append_of_ne_nil _ h

theorem joinSep_concat_ne_nil {sep : Char} {p : Chars} (h : p ≠ []) :
    ∀ parts : List Chars, joinSep sep (parts ++ [p]) ≠ [] := by
  intro parts
  cases parts with
  | nil => simpa [joinSep]
  | cons q t =>
    rw [show (q :: t) ++ [p] = q :: (t ++ [p]) from rfl]
    cases ht : t ++ [p] with
    | nil => simp at ht
    | cons r u =>
      rw [show joinSep sep (q :: r :: u) = q ++ sep :: joinSep sep (r :: u) from rfl]
      simp

theorem joinSep_concat_getLast? {sep : Char} {p : Chars} (h : p ≠ []) :
    ∀ parts : List Chars, (joinSep sep (parts ++ [p])).getLast? = p.getLast? := by
  intro parts
  induction parts with
  | nil => rfl
  | cons q t ih =>
    rw [show (q :: t) ++ [p] = q :: (t ++ [p]) from rfl]
    cases ht : t ++ [p] with
    | nil => simp at ht
    | cons r u =>
      rw [show joinSep sep (q :: r :: u) = q ++ sep :: joinSep sep (r :: u) from rfl]
      rw [List.getLast?_append_of_ne_nil _ (by simp)]
      rw [getLast?_cons_of_ne_nil' (by rw [← ht]; exact joinSep_concat_ne_nil h t)]
      rw [← ht, ih]

theorem joinSep_contains_sep {sep : Char} {parts : List Chars}
    (h : 2 ≤ parts.length) : sep ∈ joinSep sep parts := by
  cases parts with
  | nil => simp at h
  | cons p rest =>
    cases rest with
    | nil => simp at h
    | cons q t =>
      rw [show joinSep sep (p :: q :: t) = p ++ sep :: joinSep sep (q :: t) from rfl]
      simp

theorem splitOnChar_ne_nil (sep : Char) : ∀ s : Chars, splitOnChar sep s ≠ [] := by
  intro s
  cases s with
  | nil => simp [splitOnChar]
  | cons c t =>
    rw [show splitOnChar sep (c :: t) =
      (match splitOnChar sep t with
       | [] => [[c]]
       | h :: t' => if c = sep then [] :: h :: t' else (c :: h) :: t') from rfl]
    cases splitOnChar sep t with
    | nil => simp
    | cons x y => by_cases hc : c = sep <;> simp [hc]

theorem splitOnChar_sepFree {sep : Char} : ∀ {p : Chars}, sep ∉ p →
    splitOnChar sep p = [p] := by
  intro p
  induction p with
  | nil => intro _; rfl
  | cons c t ih =>
    intro h
    have hc : c ≠ sep := fun he => h (by simp [he])
    have ht : sep ∉ t := fun hm => h (by simp [hm])
    rw [show splitOnChar sep (c :: t) =
      (match splitOnChar sep t with
       | [] => [[c]]
       | h :: t' => if c = sep then [] :: h :: t' else (c :: h) :: t') from rfl]
    rw [ih ht]
    simp [hc]

theorem splitOnChar_append {sep : Char} (rest : Chars) : ∀ {p : Chars}, sep ∉ p →
    splitOnChar sep (p ++ sep :: rest) = p :: splitOnChar sep rest := by
  intro p
  induction p with
  | nil =>
    intro _
    rw [List.nil_append]
    rw [show splitOnChar sep (sep :: rest) =
      (match splitOnChar sep rest with
       | [] => [[sep]]
       | h :: t' => if sep = sep then [] :: h :: t' else (sep :: h) :: t') from rfl]
    cases hs : splitOnChar sep rest with
    | nil => exact absurd hs (splitOnChar_ne_nil sep rest)
    | cons x y => simp
  | cons c t ih =>
    intro h
    have hc : c ≠ sep := fun he => h (by simp [he])
    have ht : sep ∉ t := fun hm => h (by simp [hm])
    rw [List.cons_append]
    rw [show splitOnChar sep (c :: (t ++ sep :: rest)) =
      (match splitOnChar sep (t ++ sep :: rest) with
       | [] => [[c]]
       | h :: t' => if c = sep then [] :: h :: t' else (c :: h) :: t') from rfl]
    rw [ih ht]
    simp [hc]

theorem splitOnChar_joinSep {sep : Char} : ∀ {parts : List Chars}, parts ≠ [] →
    (∀ p ∈ parts, sep ∉ p) → splitOnChar sep (joinSep sep parts) = parts := by
  intro parts
  induction parts with
  | nil => intro h; exact absurd rfl h
  | cons p rest ih =>
    intro _ hall
    cases rest with
    | nil => exact splitOnChar_sepFree (hall p (by simp))
    | cons q t =>
      rw [show joinSep sep (p :: q :: t) = p ++ sep :: joinSep sep (q :: t) from rfl]
      rw [splitOnChar_append _ (hall p (by simp))]
      rw [ih (by simp) (fun r hr => hall r (by simp [hr]))]

theorem encodeList_eq_map (xs : List TVal) : encodeList xs = xs.map encode_value := by
  induction xs with
  | nil => rfl
  | cons v vs ih => rw [show encodeList (v :: vs) = encode_value v :: encodeList vs from rfl,
      ih, List.map_cons]

/-! ### Decoding encoded values -/

theorem decode_value_scalar {v : TVal} (h : goodScalar v = true)
    (dec : Chars → List (Chars × TVal)) :
    decode_value dec (encode_value v) = roundScalar v := by
  obtain ⟨hne, hp1, _hp2, _hpipe, htil, _hh, _hl⟩ := scalarEnc_encode h
  unfold decode_value
  rw [if_neg hne]
  rw [if_neg (by
    rintro ⟨hhd, -⟩
    exact hp1 (List.mem_of_mem_head? hhd))]
  rw [if_neg (by
    intro hcon
    exact htil (List.elem_iff.mp hcon))]
  exact try_numeric_scalar h

theorem goodInner_list {xs : List TVal} (h : goodInner (.vlist xs) = true) :
    2 ≤ xs.length ∧ ∀ v ∈ xs, goodScalar v = true := by
  simp only [goodInner, Bool.and_eq_true, decide_eq_true_eq, List.all_eq_true] at h
  exact h

theorem decode_value_inner {v : TVal} (h : goodInner v = true)
    (dec : Chars → List (Chars × TVal)) :
    decode_value dec (encode_value v) = roundInner v := by
  cases v with
  | vlist xs =>
    obtain ⟨hlen, hall⟩ := goodInner_list h
    obtain ⟨x, y, t, rfl⟩ : ∃ x y t, xs = x :: y :: t := by
      cases xs with
      | nil => simp at hlen
      | cons x r =>
        cases r with
        | nil => simp at hlen
        | cons y t => exact ⟨x, y, t, rfl⟩
    have hx := scalarEnc_encode (hall x (by simp))
    have hraw : encode_value (.vlist (x :: y :: t)) =
        joinSep '~' (encodeList (x :: y :: t)) := rfl
    have hmap : encodeList (x :: y :: t) = (x :: y :: t).map encode_value :=
      encodeList_eq_map _
    have hlen2 : 2 ≤ (encodeList (x :: y :: t)).length := by
      rw [hmap]; simp
    have hne : joinSep '~' (encodeList (x :: y :: t)) ≠ [] := by
      intro he
      have hs2 : '~' ∈ joinSep '~' (encodeList (x :: y :: t)) := joinSep_contains_sep hlen2
      rw [he] at hs2
      simp at hs2
    have htilfree : ∀ p ∈ encodeList (x :: y :: t), '~' ∉ p := by
      intro p hp
      rw [hmap] at hp
      obtain ⟨w, hw, rfl⟩ := List.mem_map.mp hp
      exact (scalarEnc_encode (hall w hw)).2.2.2.2.1
    unfold decode_value
    rw [hraw]
    rw [if_neg hne]
    rw [if_neg (by
      rintro ⟨hhd, -⟩
      rw [show encodeList (x :: y :: t) = encode_value x :: encodeList (y :: t)
        from rfl] at hhd
      rw [joinSep_head? _ hx.1] at hhd
      exact hx.2.1 (List.mem_of_mem_head? hhd))]
    rw [if_pos (List.elem_iff.mpr (joinSep_contains_sep hlen2))]
    rw [splitOnChar_joinSep (by rw [hmap]; simp) htilfree]
    rw [hmap, List.map_map]
    rw [show roundInner (.vlist (x :: y :: t)) = .vlist ((x :: y :: t).map roundScalar)
      from rfl]
    congr 1
    exact List.map_congr_left fun w hw => try_numeric_scalar (hall w hw)
  | vint n => exact decode_value_scalar (show goodScalar (.vint n) = true from h) dec
  | vbool b => exact decode_value_scalar (show goodScalar (.vbool b) = true from h) dec
  | vstr s => exact decode_value_scalar (show goodScalar (.vstr s) = true from h) dec
  | vnone => exact absurd h (by simp [goodInner, goodScalar])
  | vdict d => exact absurd h (by simp [goodInner, goodScalar])
  | vfloat s => exact absurd h (by simp [goodInner, goodScalar])

/-! ### The nesting-aware splitter on encoded records -/

theorem splitRN_skip {s : Chars} (hs : ∀ c ∈ s, c ≠ '(' ∧ c ≠ ')' ∧ c ≠ '|') :
    ∀ (rest : Chars) (d : Int) (cur : Chars),
      splitRN (s ++ rest) d cur = splitRN rest d (cur ++ s) := by
  induction s with
  | nil => intro rest d cur; simp
  | cons c t ih =>
    intro rest d cur
    obtain ⟨h1, h2, h3⟩ := hs c (by simp)
    rw [List.cons_append]
    simp only [splitRN]
    rw [if_neg h1, if_neg h2, if_neg (by rintro ⟨rfl, -⟩; exact h3 rfl)]
    rw [ih (fun x hx => hs x (by simp [hx])) rest d (cur ++ [c])]
    simp

theorem splitRN_skip_depth {s : Chars} (hs : ∀ c ∈ s, c ≠ '(' ∧ c ≠ ')') :
    ∀ (rest : Chars) (d : Int) (cur : Chars), d ≠ 0 →
      splitRN (s ++ rest) d cur = splitRN rest d (cur ++ s) := by
  induction s with
  | nil => intro rest d cur _; simp
  | cons c t ih =>
    intro rest d cur hd
    obtain ⟨h1, h2⟩ := hs c (by simp)
    rw [List.cons_append]
    simp only [splitRN]
    rw [if_neg h1, if_neg h2, if_neg (by rintro ⟨-, rfl⟩; exact hd rfl)]
    rw [ih (fun x hx => hs x (by simp [hx])) rest d (cur ++ [c]) hd]
    simp

/-- The shape of one `Key:value` chunk of an encoded record: delimiter-free,
or a delimiter-free prefix followed by one balanced bracket pair whose
inside is bracket-free (the encoding of a nested record). -/
def ChunkOK (ch : Chars) : Prop :=
  ch ≠ [] ∧
  ((∀ c ∈ ch, c ≠ '(' ∧ c ≠ ')' ∧ c ≠ '|') ∨
   ∃ pre mid, ch = pre ++ '(' :: (mid ++ [')']) ∧
     (∀ c ∈ pre, c ≠ '(' ∧ c ≠ ')' ∧ c ≠ '|') ∧
     (∀ c ∈ mid, c ≠ '(' ∧ c ≠ ')'))

theorem splitRN_chunk {ch : Chars} (h : ChunkOK ch) (rest cur : Chars) :
    splitRN (ch ++ rest) 0 cur = splitRN rest 0 (cur ++ ch) := by
  obtain ⟨-, hcase⟩ := h
  rcases hcase with hplain | ⟨pre, mid, rfl, hpre, hmid⟩
  · exact splitRN_skip hplain rest 0 cur
  · rw [show (pre ++ '(' :: (mid ++ [')'])) ++ rest =
      pre ++ '(' :: (mid ++ (')' :: rest)) by simp]
    rw [splitRN_skip hpre _ 0 cur]
    simp only [splitRN]
    rw [if_pos (by simp)]
    rw [show mid ++ ')' :: rest = mid ++ (')' :: rest) from rfl,
      splitRN_skip_depth hmid (')' :: rest) (0 + 1) (cur ++ pre ++ ['(']) (by omega)]
    simp only [splitRN]
    rw [if_neg (by simp), if_pos (by simp)]
    rw [show (0 : Int) + 1 - 1 = 0 by omega]
    congr 1
    simp

theorem splitRN_join : ∀ {chunks : List Chars}, chunks ≠ [] →
    (∀ ch ∈ chunks, ChunkOK ch) →
    split_respecting_nesting (joinSep '|' chunks) = chunks := by
  intro chunks
  induction chunks with
  | nil => intro h; exact absurd rfl h
  | cons ch rest ih =>
    intro _ hok
    unfold split_respecting_nesting
    cases rest with
    | nil =>
      rw [show joinSep '|' [ch] = ch from rfl]
      rw [show ch = ch ++ [] by simp, splitRN_chunk (hok ch (by simp)) [] []]
      simp only [splitRN, List.nil_append]
      rw [if_neg (by simpa using (hok ch (by simp)).1)]
      simp
    | cons q t =>
      rw [show joinSep '|' (ch :: q :: t) = ch ++ '|' :: joinSep '|' (q :: t) from rfl]
      rw [splitRN_chunk (hok ch (by simp)) _ []]
      simp only [splitRN, List.nil_append]
      rw [if_neg (by simp), if_neg (by simp), if_pos (by simp)]
      have := ih (by simp) (fun c hc => hok c (by simp [hc]))
      unfold split_respecting_nesting at this
      rw [this]

/-! ### Chunks of an encoded record -/

/-- The `parts` element `encode_dict` builds for one kept pair. -/
def chunkOf (kv : Chars × TVal) : Chars :=
  snake_to_short_pascal kv.1 ++ ':' :: encode_value kv.2

theorem goodKey_spec {k : Chars} (h : goodKey k = true) :
    snake_to_short_pascal k ≠ [] ∧ ∀ c ∈ snake_to_short_pascal k, alnumChar c = true := by
  simp only [goodKey, Bool.and_eq_true, List.all_eq_true, Bool.not_eq_true'] at h
  exact ⟨by simpa using h.1, h.2⟩

theorem goodFlat_spec {d : List (Chars × TVal)} (h : goodFlat d = true) :
    d ≠ [] ∧ (∀ kv ∈ d, goodKey kv.1 = true ∧ goodInner kv.2 = true) ∧
    (d.map fun kv => roundKey kv.1).Nodup := by
  simp only [goodFlat, Bool.and_eq_true, List.all_eq_true, Bool.not_eq_true',
    decide_eq_true_eq] at h
  refine ⟨by simpa using h.1.1, fun kv hkv => ?_, h.2⟩
  have := h.1.2 kv hkv
  simpa [Bool.and_eq_true] using this

theorem goodRecord_spec {r : List (Chars × TVal)} (h : goodRecord r = true) :
    (∀ kv ∈ r, goodKey kv.1 = true ∧ goodTop kv.2 = true) ∧
    (r.map fun kv => roundKey kv.1).Nodup := by
  simp only [goodRecord, Bool.and_eq_true, List.all_eq_true, decide_eq_true_eq] at h
  refine ⟨fun kv hkv => ?_, h.2⟩
  have := h.1 kv hkv
  simpa [Bool.and_eq_true] using this

theorem goodTop_of_inner : ∀ {v : TVal}, goodInner v = true → goodTop v = true
  | .vnone, h => h
  | .vbool _, h => h
  | .vint _, h => h
  | .vstr _, h => h
  | .vlist _, h => h
  | .vfloat _, h => h
  | .vdict _, h => absurd h (by simp [goodInner, goodScalar])

theorem goodInner_not_empty {v : TVal} (h : goodInner v = true) :
    isEmptyVal v = false := by
  cases v with
  | vint n => rfl
  | vbool b => rfl
  | vstr s =>
    cases s with
    | nil => exact absurd h (by simp [goodInner, goodScalar, goodStr])
    | cons c t => rfl
  | vlist xs =>
    cases xs with
    | nil => exact absurd h (by simp [goodInner])
    | cons x t => rfl
  | vnone => exact absurd h (by simp [goodInner, goodScalar])
  | vdict d => exact absurd h (by simp [goodInner, goodScalar])
  | vfloat s => exact absurd h (by simp [goodInner, goodScalar])

theorem goodTop_not_empty {v : TVal} (h : goodTop v = true) :
    isEmptyVal v = false := by
  cases v with
  | vdict d =>
    obtain ⟨hne, -, -⟩ := goodFlat_spec h
    cases d with
    | nil => exact absurd rfl hne
    | cons kv t => rfl
  | vnone => exact goodInner_not_empty h
  | vbool b => exact goodInner_not_empty h
  | vint n => exact goodInner_not_empty h
  | vstr s => exact goodInner_not_empty h
  | vlist xs => exact goodInner_not_empty h
  | vfloat s => exact goodInner_not_empty h

theorem encodeEntries_eq_map : ∀ {d : List (Chars × TVal)},
    (∀ kv ∈ d, isEmptyVal kv.2 = false) → encodeEntries d = d.map chunkOf := by
  intro d
  induction d with
  | nil => intro _; rfl
  | cons kv rest ih =>
    intro h
    obtain ⟨k, v⟩ := kv
    rw [show encodeEntries ((k, v) :: rest) =
      (if isEmptyVal v then encodeEntries rest
       else (snake_to_short_pascal k ++ ':' :: encode_value v) :: encodeEntries rest)
      from rfl]
    rw [if_neg (by simp [h (k, v) (by simp)])]
    rw [ih fun kv' h' => h kv' (by simp [h'])]
    rfl

/-- Every character of the chunk of a pair with a scalar-or-list value is
delimiter-free. -/
theorem chunk_noDelim {kv : Chars × TVal} (hk : goodKey kv.1 = true)
    (hv : goodInner kv.2 = true) :
    ∀ c ∈ chunkOf kv, c ≠ '(' ∧ c ≠ ')' ∧ c ≠ '|' := by
  intro c hc
  unfold chunkOf at hc
  rcases List.mem_append.mp hc with hm | hm
  · have := (goodKey_spec hk).2 c hm
    obtain ⟨hp, -, ho, hcl, -, -⟩ := alnum_spec this
    exact ⟨ho, hcl, hp⟩
  · rcases List.mem_cons.mp hm with rfl | hm2
    · exact ⟨by decide, by decide, by decide⟩
    · cases hv2 : kv.2 with
      | vlist xs =>
        rw [hv2] at hm2
        rcases mem_joinSep (by
            rw [show encode_value (.vlist xs) = joinSep '~' (encodeList xs) from rfl]
              at hm2
            exact hm2) with rfl | ⟨p, hp, hcp⟩
        · exact ⟨by decide, by decide, by decide⟩
        · rw [hv2] at hv
          obtain ⟨-, hall⟩ := goodInner_list hv
          rw [encodeList_eq_map] at hp
          obtain ⟨w, hw, rfl⟩ := List.mem_map.mp hp
          have hse := scalarEnc_encode (hall w hw)
          exact ⟨fun he => hse.2.1 (he ▸ hcp), fun he => hse.2.2.1 (he ▸ hcp),
            fun he => hse.2.2.2.1 (he ▸ hcp)⟩
      | vint n =>
        rw [hv2] at hm2 hv
        have hse := scalarEnc_encode (show goodScalar (.vint n) = true from hv)
        exact ⟨fun he => hse.2.1 (he ▸ hm2), fun he => hse.2.2.1 (he ▸ hm2),
          fun he => hse.2.2.2.1 (he ▸ hm2)⟩
      | vbool b =>
        rw [hv2] at hm2 hv
        have hse := scalarEnc_encode (show goodScalar (.vbool b) = true from hv)
        exact ⟨fun he => hse.2.1 (he ▸ hm2), fun he => hse.2.2.1 (he ▸ hm2),
          fun he => hse.2.2.2.1 (he ▸ hm2)⟩
      | vstr s =>
        rw [hv2] at hm2 hv
        have hse := scalarEnc_encode (show goodScalar (.vstr s) = true from hv)
        exact ⟨fun he => hse.2.1 (he ▸ hm2), fun he => hse.2.2.1 (he ▸ hm2),
          fun he => hse.2.2.2.1 (he ▸ hm2)⟩
      | vnone => rw [hv2] at hv; exact absurd hv (by simp [goodInner, goodScalar])
      | vdict d => rw [hv2] at hv; exact absurd hv (by simp [goodInner, goodScalar])
      | vfloat s => rw [hv2] at hv; exact absurd hv (by simp [goodInner, goodScalar])

theorem joinSep_ne_nil_of_first {sep : Char} {p : Chars} (hp : p ≠ []) :
    ∀ rest : List Chars, joinSep sep (p :: rest) ≠ [] := by
  intro rest
  cases rest with
  | nil => exact hp
  | cons q t =>
    rw [show joinSep sep (p :: q :: t) = p ++ sep :: joinSep sep (q :: t) from rfl]
    simp

theorem joinSep_ends_last {sep : Char} : ∀ {parts : List Chars}, parts ≠ [] →
    (∀ p ∈ parts, p ≠ []) →
    (∀ p ∈ parts, (p.getLast?.all fun c => !isPyWS c) = true) →
    ((joinSep sep parts).getLast?.all fun c => !isPyWS c) = true := by
  intro parts
  induction parts with
  | nil => intro h; exact absurd rfl h
  | cons p rest ih =>
    intro _ hne hlast
    cases rest with
    | nil => exact hlast p (by simp)
    | cons q t =>
      rw [show joinSep sep (p :: q :: t) = p ++ sep :: joinSep sep (q :: t) from rfl]
      rw [List.getLast?_append_of_ne_nil _ (by simp)]
      rw [getLast?_cons_of_ne_nil'
        (joinSep_ne_nil_of_first (hne q (by simp)) t)]
      exact ih (by simp) (fun r hr => hne r (by simp [hr]))
        (fun r hr => hlast r (by simp [hr]))

theorem encode_ne_nil {v : TVal} (hv : goodTop v = true) : encode_value v ≠ [] := by
  cases v with
  | vint n => exact (scalarEnc_intRepr n).1
  | vbool b => cases b <;> simp [encode_value]
  | vstr s => exact (scalarEnc_goodStr hv).1
  | vlist xs =>
    obtain ⟨hlen, -⟩ := goodInner_list hv
    intro he
    have hlen2 : 2 ≤ (encodeList xs).length := by
      rw [encodeList_eq_map]
      simpa using hlen
    have hmem : '~' ∈ joinSep '~' (encodeList xs) := joinSep_contains_sep hlen2
    rw [show encode_value (.vlist xs) = joinSep '~' (encodeList xs) from rfl] at he
    rw [he] at hmem
    simp at hmem
  | vdict d => simp [encode_value]
  | vnone => exact absurd hv (by simp [goodTop, goodInner, goodScalar])
  | vfloat s => exact absurd hv (by simp [goodTop, goodInner, goodScalar])

theorem encode_ends {v : TVal} (hv : goodTop v = true) :
    ((encode_value v).head?.all fun c => !isPyWS c) = true ∧
    ((encode_value v).getLast?.all fun c => !isPyWS c) = true := by
  cases v with
  | vint n => exact ⟨(scalarEnc_intRepr n).2.2.2.2.2.1, (scalarEnc_intRepr n).2.2.2.2.2.2⟩
  | vbool b => cases b <;> exact ⟨by decide, by decide⟩
  | vstr s =>
    exact ⟨(scalarEnc_goodStr hv).2.2.2.2.2.1, (scalarEnc_goodStr hv).2.2.2.2.2.2⟩
  | vlist xs =>
    obtain ⟨hlen, hall⟩ := goodInner_list hv
    obtain ⟨x, r, rfl⟩ : ∃ x r, xs = x :: r := by
      cases xs with
      | nil => simp at hlen
      | cons x r => exact ⟨x, r, rfl⟩
    have hx := scalarEnc_encode (hall x (by simp))
    constructor
    · rw [show encode_value (.vlist (x :: r)) =
        joinSep '~' (encode_value x :: encodeList r) from rfl]
      rw [joinSep_head? _ hx.1]
      exact hx.2.2.2.2.2.1
    · rw [show encode_value (.vlist (x :: r)) =
        joinSep '~' (encode_value x :: encodeList r) from rfl]
      apply joinSep_ends_last (by simp)
      · intro p hp
        rcases List.mem_cons.mp hp with rfl | hm
        · exact hx.1
        · rw [encodeList_eq_map] at hm
          obtain ⟨w, hw, rfl⟩ := List.mem_map.mp hm
          exact (scalarEnc_encode (hall w (by simp [hw]))).1
      · intro p hp
        rcases List.mem_cons.mp hp with rfl | hm
        · exact hx.2.2.2.2.2.2
        · rw [encodeList_eq_map] at hm
          obtain ⟨w, hw, rfl⟩ := List.mem_map.mp hm
          exact (scalarEnc_encode (hall w (by simp [hw]))).2.2.2.2.2.2
  | vdict d =>
    constructor
    · rw [show encode_value (.vdict d) =
        '(' :: (joinSep '|' (encodeEntries d) ++ [')']) from rfl]
      rw [List.head?_cons]
      decide
    · rw [show encode_value (.vdict d) =
        '(' :: (joinSep '|' (encodeEntries d) ++ [')']) from rfl]
      rw [getLast?_cons_of_ne_nil' (by simp),
        List.getLast?_append_of_ne_nil _ (by simp)]
      decide
  | vnone => exact absurd hv (by simp [goodTop, goodInner, goodScalar])
  | vfloat s => exact absurd hv (by simp [goodTop, goodInner, goodScalar])

theorem chunkOK_of_good {kv : Chars × TVal} (hk : goodKey kv.1 = true)
    (hv : goodTop kv.2 = true) : ChunkOK (chunkOf kv) := by
  refine ⟨by simp [chunkOf], ?_⟩
  obtain ⟨k, v⟩ := kv
  cases v with
  | vdict d =>
    right
    refine ⟨snake_to_short_pascal k ++ [':'], joinSep '|' (encodeEntries d), ?_, ?_, ?_⟩
    · show snake_to_short_pascal k ++ ':' :: encode_value (.vdict d) = _
      rw [show encode_value (.vdict d) =
        '(' :: (joinSep '|' (encodeEntries d) ++ [')']) from rfl]
      simp
    · intro c hc
      rcases List.mem_append.mp hc with hm | hm
      · have := (goodKey_spec hk).2 c hm
        obtain ⟨hp, -, ho, hcl, -, -⟩ := alnum_spec this
        exact ⟨ho, hcl, hp⟩
      · simp only [List.mem_singleton] at hm
        subst hm
        exact ⟨by decide, by decide, by decide⟩
    · intro c hc
      obtain ⟨hdne, hinner, -⟩ := goodFlat_spec hv
      rw [encodeEntries_eq_map
        (fun kv' h' => goodInner_not_empty (hinner kv' h').2)] at hc
      rcases mem_joinSep hc with rfl | ⟨p, hp, hcp⟩
      · exact ⟨by decide, by decide⟩
      · obtain ⟨kv', hkv', rfl⟩ := List.mem_map.mp hp
        have := chunk_noDelim (hinner kv' hkv').1 (hinner kv' hkv').2 c hcp
        exact ⟨this.1, this.2.1⟩
  | vint n => exact Or.inl (chunk_noDelim hk hv)
  | vbool b => exact Or.inl (chunk_noDelim hk hv)
  | vstr s => exact Or.inl (chunk_noDelim hk hv)
  | vlist xs => exact Or.inl (chunk_noDelim hk hv)
  | vnone => exact absurd hv (by simp [goodTop, goodInner, goodScalar])
  | vfloat s => exact absurd hv (by simp [goodTop, goodInner, goodScalar])

theorem breakColon_chunk {enc : Chars} : ∀ {al : Chars},
    (∀ c ∈ al, alnumChar c = true) →
    breakColon (al ++ ':' :: enc) = (al, some enc) := by
  intro al
  induction al with
  | nil =>
    intro _
    rw [List.nil_append]
    simp only [breakColon]
    rw [if_pos trivial]
  | cons c t ih =>
    intro h
    have hc : c ≠ ':' := (alnum_spec (h c (by simp))).2.2.2.2.1
    rw [List.cons_append]
    simp only [breakColon]
    rw [if_neg hc, ih fun x hx => h x (by simp [hx])]

theorem alias_strip {k : Chars} (hk : goodKey k = true) :
    pyStrip (snake_to_short_pascal k) = snake_to_short_pascal k := by
  apply pyStrip_eq_self
  · cases hh : (snake_to_short_pascal k).head? with
    | none => rfl
    | some c =>
      simp [(alnum_spec ((goodKey_spec hk).2 c (List.mem_of_mem_head? hh))).2.2.2.2.2]
  · cases hh : (snake_to_short_pascal k).getLast? with
    | none => rfl
    | some c =>
      simp [(alnum_spec ((goodKey_spec hk).2 c (List.mem_of_mem_getLast? hh))).2.2.2.2.2]

theorem encode_strip {v : TVal} (hv : goodTop v = true) :
    pyStrip (encode_value v) = encode_value v :=
  pyStrip_eq_self (encode_ends hv).1 (encode_ends hv).2

/-! ### Folding `dictAssign` over distinct keys -/

theorem dictAssign_append {κ α : Type} [DecidableEq κ] :
    ∀ {d : List (κ × α)} {k : κ} {v : α},
    (∀ kv ∈ d, kv.1 ≠ k) → dictAssign d k v = d ++ [(k, v)] := by
  intro d
  induction d with
  | nil => intro k v _; rfl
  | cons kv0 rest ih =>
    intro k v h
    obtain ⟨k0, v0⟩ := kv0
    rw [show dictAssign ((k0, v0) :: rest) k v =
      (if k0 = k then (k0, v) :: rest else (k0, v0) :: dictAssign rest k v) from rfl]
    rw [if_neg (h (k0, v0) (by simp))]
    rw [ih fun kv' h' => h kv' (by simp [h'])]
    rfl

theorem foldl_dictAssign {κ α : Type} [DecidableEq κ] :
    ∀ (pairs acc : List (κ × α)), (pairs.map Prod.fst).Nodup →
    (∀ p ∈ pairs, ∀ q ∈ acc, q.1 ≠ p.1) →
    pairs.foldl (fun a kv => dictAssign a kv.1 kv.2) acc = acc ++ pairs := by
  intro pairs
  induction pairs with
  | nil => intro acc _ _; simp
  | cons p ps ih =>
    intro acc hnd hdisj
    rw [List.map_cons] at hnd
    have hstep : dictAssign acc p.1 p.2 = acc ++ [p] := by
      apply dictAssign_append
      intro kv hkv
      exact hdisj p (by simp) kv hkv
    have hdisj2 : ∀ q ∈ ps, ∀ r ∈ acc ++ [p], r.1 ≠ q.1 := by
      intro q hq r hr
      rcases List.mem_append.mp hr with hr | hr
      · exact hdisj q (by simp [hq]) r hr
      · simp only [List.mem_singleton] at hr
        subst hr
        intro he
        exact (List.nodup_cons.mp hnd).1 (List.mem_map.mpr ⟨q, hq, he.symm⟩)
    simp only [List.foldl_cons]
    rw [hstep, ih (acc ++ [p]) (List.nodup_cons.mp hnd).2 hdisj2]
    simp

theorem foldl_congr_on {β γ : Type} {f g : γ → β → γ} :
    ∀ {l : List β} {a : γ}, (∀ acc x, x ∈ l → f acc x = g acc x) →
    l.foldl f a = l.foldl g a := by
  intro l
  induction l with
  | nil => intro a _; rfl
  | cons x t ih =>
    intro a h
    rw [List.foldl_cons, List.foldl_cons, h a x (by simp)]
    exact ih fun acc y hy => h acc y (by simp [hy])

/-! ### The round-trip core -/

/-- One decode step over an encoded good record, parameterized by what
decoding does to each value (`RV`). -/
theorem decodeF_encode_core (RV : TVal → TVal) (f : Nat) {d : List (Chars × TVal)}
    (hne : d ≠ [])
    (hall : ∀ kv ∈ d, goodKey kv.1 = true ∧ goodTop kv.2 = true)
    (hnd : (d.map fun kv => roundKey kv.1).Nodup)
    (hdec : ∀ kv ∈ d, decode_value (decodeF f) (encode_value kv.2) = RV kv.2) :
    decodeF (f + 1) (encode_dict d) = d.map fun kv => (roundKey kv.1, RV kv.2) := by
  have hemp : ∀ kv ∈ d, isEmptyVal kv.2 = false :=
    fun kv h => goodTop_not_empty (hall kv h).2
  have henc : encode_dict d = joinSep '|' (d.map chunkOf) := by
    rw [encode_dict, encodeEntries_eq_map hemp]
  have hkchunks : ∀ ch ∈ d.map chunkOf, ChunkOK ch := by
    intro ch hch
    obtain ⟨kv, hkv, rfl⟩ := List.mem_map.mp hch
    exact chunkOK_of_good (hall kv hkv).1 (hall kv hkv).2
  obtain ⟨kv0, d', rfl⟩ : ∃ kv0 d', d = kv0 :: d' := by
    cases d with
    | nil => exact absurd rfl hne
    | cons kv0 d' => exact ⟨kv0, d', rfl⟩
  have hchunk_last : ∀ kv ∈ kv0 :: d',
      ((chunkOf kv).getLast?.all fun c => !isPyWS c) = true := by
    intro kv hkv
    unfold chunkOf
    rw [List.getLast?_append_of_ne_nil _ (by simp)]
    rw [getLast?_cons_of_ne_nil' (encode_ne_nil (hall kv hkv).2)]
    exact (encode_ends (hall kv hkv).2).2
  have hstripid : pyStrip (encode_dict (kv0 :: d')) = encode_dict (kv0 :: d') := by
    rw [henc]
    apply pyStrip_eq_self
    · rw [List.map_cons, joinSep_head? _ (by simp [chunkOf])]
      obtain ⟨hane, hal⟩ := goodKey_spec (hall kv0 (by simp)).1
      obtain ⟨a, t, hat⟩ : ∃ a t, snake_to_short_pascal kv0.1 = a :: t := by
        cases hs : snake_to_short_pascal kv0.1 with
        | nil => exact absurd hs hane
        | cons a t => exact ⟨a, t, rfl⟩
      rw [show chunkOf kv0 =
        snake_to_short_pascal kv0.1 ++ ':' :: encode_value kv0.2 from rfl]
      rw [List.head?_append_of_ne_nil _ hane, hat, List.head?_cons]
      simp [(alnum_spec (hal a (by rw [hat]; simp))).2.2.2.2.2]
    · rw [List.map_cons]
      apply joinSep_ends_last (by simp)
      · intro p hp
        rcases List.mem_cons.mp hp with rfl | hm
        · simp [chunkOf]
        · obtain ⟨kv, _hkv, rfl⟩ := List.mem_map.mp hm
          simp [chunkOf]
      · intro p hp
        rcases List.mem_cons.mp hp with rfl | hm
        · exact hchunk_last kv0 (by simp)
        · obtain ⟨kv, hkv, rfl⟩ := List.mem_map.mp hm
          exact hchunk_last kv (by simp [hkv])
  have hedne : encode_dict (kv0 :: d') ≠ [] := by
    rw [henc, List.map_cons]
    exact joinSep_ne_nil_of_first (by simp [chunkOf]) _
  simp only [decodeF]
  rw [if_neg (by rw [hstripid]; exact hedne)]
  rw [henc]
  unfold split_respecting_nesting at hkchunks ⊢
  rw [show splitRN (joinSep '|' ((kv0 :: d').map chunkOf)) 0 [] =
    split_respecting_nesting (joinSep '|' ((kv0 :: d').map chunkOf)) from rfl]
  rw [splitRN_join (by simp) hkchunks]
  rw [List.foldl_map]
  have hfold : ∀ (acc : List (Chars × TVal)) (kv : Chars × TVal), kv ∈ kv0 :: d' →
      (match breakColon (chunkOf kv) with
       | (_, none) => acc
       | (key, some value) =>
         dictAssign acc (pascal_to_snake (pyStrip key))
           (decode_value (decodeF f) (pyStrip value))) =
      dictAssign acc (roundKey kv.1) (RV kv.2) := by
    intro acc kv hkv
    rw [show chunkOf kv =
      snake_to_short_pascal kv.1 ++ ':' :: encode_value kv.2 from rfl,
      breakColon_chunk (goodKey_spec (hall kv hkv).1).2]
    show dictAssign acc (pascal_to_snake (pyStrip (snake_to_short_pascal kv.1)))
      (decode_value (decodeF f) (pyStrip (encode_value kv.2))) = _
    rw [alias_strip (hall kv hkv).1, encode_strip (hall kv hkv).2, hdec kv hkv]
    rfl
  rw [foldl_congr_on hfold]
  have hmm := List.foldl_map (fun kv : Chars × TVal => (roundKey kv.1, RV kv.2))
    (fun (a : List (Chars × TVal)) kv => dictAssign a kv.1 kv.2) (kv0 :: d') []
  rw [show ((kv0 :: d').foldl
      (fun acc kv => dictAssign acc (roundKey kv.1) (RV kv.2)) []) =
    (((kv0 :: d').map fun kv => (roundKey kv.1, RV kv.2)).foldl
      (fun a kv => dictAssign a kv.1 kv.2) []) from hmm.symm]
  rw [foldl_dictAssign _ [] (by simpa [List.map_map, Function.comp] using hnd)
    (by intro p _ q hq; simp at hq)]
  simp

theorem decode_encode_flat (f : Nat) {d : List (Chars × TVal)}
    (hd : goodFlat d = true) :
    decodeF (f + 1) (encode_dict d) =
      d.map fun kv => (roundKey kv.1, roundInner kv.2) := by
  obtain ⟨hne, hall, hnd⟩ := goodFlat_spec hd
  exact decodeF_encode_core roundInner f hne
    (fun kv h => ⟨(hall kv h).1, goodTop_of_inner (hall kv h).2⟩) hnd
    (fun kv h => decode_value_inner (hall kv h).2 _)

theorem decode_value_top {v : TVal} (hv : goodTop v = true) {f : Nat} (hf : f ≠ 0) :
    decode_value (decodeF f) (encode_value v) = roundVal v := by
  cases v with
  | vdict d =>
    obtain ⟨g, rfl⟩ : ∃ g, f = g + 1 := ⟨f - 1, by omega⟩
    have hraw : encode_value (.vdict d) = '(' :: (encode_dict d ++ [')']) := rfl
    unfold decode_value
    rw [hraw]
    rw [if_neg (by simp)]
    rw [if_pos ⟨by simp, by
      rw [getLast?_cons_of_ne_nil' (by simp),
        List.getLast?_append_of_ne_nil _ (by simp)]
      rfl⟩]
    rw [show (('(' :: (encode_dict d ++ [')'])).drop 1).dropLast = encode_dict d by
      simp [List.dropLast_concat]]
    rw [decode_encode_flat g hv]
    rfl
  | vint n => exact decode_value_inner (show goodInner (.vint n) = true from hv) _
  | vbool b => exact decode_value_inner (show goodInner (.vbool b) = true from hv) _
  | vstr s => exact decode_value_inner (show goodInner (.vstr s) = true from hv) _
  | vlist xs => exact decode_value_inner (show goodInner (.vlist xs) = true from hv) _
  | vnone => exact absurd hv (by simp [goodTop, goodInner, goodScalar])
  | vfloat s => exact absurd hv (by simp [goodTop, goodInner, goodScalar])

theorem encode_dict_ne_nil {d : List (Chars × TVal)} (hne : d ≠ [])
    (hall : ∀ kv ∈ d, goodKey kv.1 = true ∧ goodTop kv.2 = true) :
    encode_dict d ≠ [] := by
  have hemp : ∀ kv ∈ d, isEmptyVal kv.2 = false :=
    fun kv h => goodTop_not_empty (hall kv h).2
  rw [encode_dict, encodeEntries_eq_map hemp]
  cases d with
  | nil => exact absurd rfl hne
  | cons kv0 d' =>
    rw [List.map_cons]
    exact joinSep_ne_nil_of_first (by simp [chunkOf]) _

/-- The round trip on the good class: decoding the encoding yields exactly
the record with round-tripped keys and round-tripped values. -/
theorem decode_encode_good {r : List (Chars × TVal)} (hr : goodRecord r = true) :
    decode (encode_dict r) = roundRecord r := by
  cases r with
  | nil => rfl
  | cons kv0 r' =>
    obtain ⟨hall, hnd⟩ := goodRecord_spec hr
    have hlen : (encode_dict (kv0 :: r')).length ≠ 0 := by
      intro h
      exact encode_dict_ne_nil (by simp) hall (List.length_eq_zero.mp h)
    unfold decode
    exact decodeF_encode_core roundVal _ (by simp) hall hnd
      (fun kv h => decode_value_top (hall kv h).2 hlen)

/-! ### Boolean-free records round-trip verbatim -/

theorem roundScalar_eq_of_not_bool {v : TVal} (h : scalarNotBool v = true) :
    roundScalar v = v := by
  cases v with
  | vbool b => exact absurd h (by simp [scalarNotBool])
  | vnone => rfl
  | vint n => rfl
  | vstr s => rfl
  | vlist xs => rfl
  | vdict d => rfl
  | vfloat s => rfl

theorem roundInner_eq_of_boolFree {v : TVal} (h : boolFreeInner v = true) :
    roundInner v = v := by
  cases v with
  | vlist xs =>
    show TVal.vlist (xs.map roundScalar) = .vlist xs
    congr 1
    have hall : ∀ w ∈ xs, scalarNotBool w = true := by
      simpa [boolFreeInner, List.all_eq_true] using h
    calc xs.map roundScalar = xs.map id :=
          List.map_congr_left fun w hw => roundScalar_eq_of_not_bool (hall w hw)
      _ = xs := List.map_id xs
  | vbool b => exact absurd h (by simp [boolFreeInner, scalarNotBool])
  | vnone => rfl
  | vint n => rfl
  | vstr s => rfl
  | vdict d => rfl
  | vfloat s => rfl

theorem roundVal_eq_preserve {v : TVal} (h : boolFreeVal v = true) :
    roundVal v = preserveVal v := by
  cases v with
  | vdict d =>
    show TVal.vdict (d.map fun kv => (roundKey kv.1, roundInner kv.2)) =
      .vdict (d.map fun kv => (roundKey kv.1, kv.2))
    congr 1
    apply List.map_congr_left
    intro kv hkv
    have hin : boolFreeInner kv.2 = true := by
      have := (by simpa [boolFreeVal, List.all_eq_true] using h : ∀ x ∈ d, boolFreeInner x.2 = true)
      exact this kv hkv
    rw [roundInner_eq_of_boolFree hin]
  | vbool b => exact absurd h (by simp [boolFreeVal, boolFreeInner, scalarNotBool])
  | vnone => rfl
  | vint n => rfl
  | vstr s => rfl
  | vlist xs =>
    show roundInner (.vlist xs) = .vlist xs
    exact roundInner_eq_of_boolFree h
  | vfloat s => rfl

/-- The encoder strips exactly the pairs whose value is `None`, the empty
string, the empty list or the empty dict. -/
theorem encodeEntries_filter : ∀ d : List (Chars × TVal),
    encodeEntries d = encodeEntries (d.filter fun kv => !isEmptyVal kv.2) := by
  intro d
  induction d with
  | nil => rfl
  | cons kv rest ih =>
    obtain ⟨k, v⟩ := kv
    by_cases he : isEmptyVal v = true
    · rw [show encodeEntries ((k, v) :: rest) =
        (if isEmptyVal v then encodeEntries rest
         else (snake_to_short_pascal k ++ ':' :: encode_value v) :: encodeEntries rest)
        from rfl]
      rw [if_pos he, List.filter_cons, if_neg (by simp [he])]
      exact ih
    · rw [show encodeEntries ((k, v) :: rest) =
        (if isEmptyVal v then encodeEntries rest
         else (snake_to_short_pascal k ++ ':' :: encode_value v) :: encodeEntries rest)
        from rfl]
      rw [if_neg he, List.filter_cons,
        if_pos (by simp [Bool.not_eq_true] at he ⊢; exact he)]
      rw [show encodeEntries ((k, v) :: List.filter (fun kv => !isEmptyVal kv.2) rest) =
        (if isEmptyVal v then encodeEntries (List.filter (fun kv => !isEmptyVal kv.2) rest)
         else (snake_to_short_pascal k ++ ':' :: encode_value v) ::
           encodeEntries (List.filter (fun kv => !isEmptyVal kv.2) rest)) from rfl]
      rw [if_neg he, ih]

/-! ### A bracket-headed value never parses as a number -/

theorem pyDigits_not_digit {c : Char} {rest : Chars} (h : isDigit09 c = false) :
    pyDigits (c :: rest) = none := by
  simp only [pyDigits]
  rw [if_neg (by simp [h])]

theorem splitAtExp_cons {c : Char} {l : Chars} (h1 : c ≠ 'e') (h2 : c ≠ 'E') :
    splitAtExp (c :: l) = (c :: (splitAtExp l).1, (splitAtExp l).2) := by
  simp only [splitAtExp]
  rw [if_neg (by rintro (rfl | rfl); exacts [h1 rfl, h2 rfl])]

theorem splitAtDot_cons {c : Char} {l : Chars} (h : c ≠ '.') :
    splitAtDot (c :: l) = (c :: (splitAtDot l).1, (splitAtDot l).2) := by
  simp only [splitAtDot]
  rw [if_neg h]

theorem mantOK_paren (m : Chars) : mantOK ('(' :: m) = false := by
  unfold mantOK
  rw [splitAtDot_cons (by decide)]
  rcases hsd : splitAtDot m with ⟨pre, dotPart⟩
  simp only [hsd]
  cases dotPart with
  | none =>
    show (pyDigits ('(' :: pre)).isSome = false
    rw [pyDigits_not_digit (by decide)]
    rfl
  | some post =>
    show (if post.contains '.' then false
      else decide (('(' :: pre = [] ∧ (pyDigits post).isSome = true) ∨
        ((pyDigits ('(' :: pre)).isSome = true ∧ post = []) ∨
        ((pyDigits ('(' :: pre)).isSome = true ∧ (pyDigits post).isSome = true))) = false
    by_cases hc : post.contains '.'
    · rw [if_pos hc]
    · rw [if_neg hc]
      simp [pyDigits_not_digit (show isDigit09 '(' = false by decide)]

theorem pyIntParse_paren {t : Chars} (hstrip : pyStrip ('(' :: t) = '(' :: t) :
    pyIntParse ('(' :: t) = none := by
  rw [pyIntParse_no_sign hstrip (by decide) (by decide),
    pyDigits_not_digit (by decide)]
  rfl

theorem pyFloatParseable_paren {t : Chars} (hstrip : pyStrip ('(' :: t) = '(' :: t) :
    pyFloatParseable ('(' :: t) = false := by
  have h1 : pyFloatParseable ('(' :: t) =
      (if (('(' :: t).map asciiToLower) = "inf".toList ∨
          (('(' :: t).map asciiToLower) = "infinity".toList ∨
          (('(' :: t).map asciiToLower) = "nan".toList then true
       else match splitAtExp ('(' :: t) with
        | (m, none) => mantOK m
        | (m, some ep) => mantOK m ∧ expPartOK ep) := by
    unfold pyFloatParseable
    rw [hstrip]
    rfl
  rw [h1]
  rw [if_neg (by
    rintro (h | h | h) <;>
      (rw [List.map_cons] at h
       have h2 := congrArg List.head? h
       rw [List.head?_cons] at h2
       exact absurd h2 (by decide)))]
  rw [splitAtExp_cons (by decide) (by decide)]
  rcases hse : splitAtExp t with ⟨m, e⟩
  simp only [hse]
  cases e with
  | none => exact mantOK_paren m
  | some ep => simp [mantOK_paren m]

/-! ## Theorems -/

/-- C1: for modality scores in `[0,1]`, the fused score is the sum over
modalities of `nominal weight / total weight × score` and lies in `[0,1]`;
an absent modality contributes score 0. -/
theorem fused_probability_weighted_sum_unit_interval (st : FusionState)
    (h : ∀ m, 0 ≤ scoreOf st m ∧ scoreOf st m ≤ 1) :
    fusedProb st =
      (allModalities.map fun m => nominalWeight m / totalWeight * scoreOf st m).sum ∧
    0 ≤ fusedProb st ∧ fusedProb st ≤ 1 ∧
    (st.vision_result = none → scoreOf st .vision = 0) ∧
    (st.history_risk_score = none → scoreOf st .history = 0) ∧
    (st.service_age_risk_score = none → scoreOf st .serviceAge = 0) ∧
    (st.transactional_risk_score = none → scoreOf st .transactional = 0) := by
  obtain ⟨h10, h11⟩ := h .sensor
  obtain ⟨h20, h21⟩ := h .vision
  obtain ⟨h30, h31⟩ := h .history
  obtain ⟨h40, h41⟩ := h .serviceAge
  obtain ⟨h50, h51⟩ := h .transactional
  simp only [scoreOf] at h10 h11 h20 h21 h30 h31 h40 h41 h50 h51
  have htw : totalWeight = 3/2 := by norm_num [totalWeight, nominalWeight]
  have hfp : fusedProb st =
      8/15 * sensorScore st + 2/15 * visionScore st + 1/15 * historyScore st +
      2/15 * serviceAgeScore st + 2/15 * transactionalScore st := by
    simp only [fusedProb, normalizedWeight, htw, nominalWeight]
    norm_num
  refine ⟨?_, ?_, ?_, ?_, ?_, ?_, ?_⟩
  · simp only [allModalities, List.map_cons, List.map_nil, List.sum_cons, List.sum_nil,
      htw, nominalWeight, scoreOf, hfp]
    ring
  · rw [hfp]; positivity
  · rw [hfp]; linarith
  · intro hv; simp [scoreOf, visionScore, hv]
  · intro hv; simp [scoreOf, historyScore, hv]
  · intro hv; simp [scoreOf, serviceAgeScore, hv]
  · intro hv; simp [scoreOf, transactionalScore, hv]

/-- Concrete state for the C1 witness: sensor score present, vision present,
history/service-age/transactional stages did not run. -/
def witnessState : FusionState :=
  { sensor_risk_score := 9/10
    vision_result := some { visual_risk_score := 1/2 } }

/-- C1 witness: the theorem applied at `witnessState`. -/
theorem fused_probability_weighted_sum_unit_interval_witness :
    0 ≤ fusedProb witnessState ∧ fusedProb witnessState ≤ 1 :=
  ⟨(fused_probability_weighted_sum_unit_interval witnessState
      (by intro m; cases m <;> simp [scoreOf, sensorScore, visionScore, historyScore,
        serviceAgeScore, transactionalScore, witnessState] <;> norm_num)).2.1,
   (fused_probability_weighted_sum_unit_interval witnessState
      (by intro m; cases m <;> simp [scoreOf, sensorScore, visionScore, historyScore,
        serviceAgeScore, transactionalScore, witnessState] <;> norm_num)).2.2.1⟩

/-- C2: the risk label is a monotone function of the fused probability with
bands at 0.35/0.60/0.85, the boundary values map to the higher band, and the
tools label agrees with `_risk_from_prob`. -/
theorem risk_label_monotone_and_boundaries :
    (∀ p q : ℚ, p ≤ q → (riskFromProb p).rank ≤ (riskFromProb q).rank) ∧
    riskFromProb (35/100) = .medium ∧
    riskFromProb (60/100) = .high ∧
    riskFromProb (85/100) = .critical ∧
    (∀ p : ℚ, get_risk_threshold_label p = (riskFromProb p).str) := by
  refine ⟨?_, ?_, ?_, ?_, ?_⟩
  · intro p q hpq
    unfold riskFromProb
    split_ifs <;> simp_all [RiskLevel.rank] <;> linarith
  · norm_num [riskFromProb]
  · norm_num [riskFromProb]
  · norm_num [riskFromProb]
  · intro p
    unfold get_risk_threshold_label riskFromProb
    split_ifs <;> simp [RiskLevel.str]

/-- C2 witness: monotonicity applied at `0.1 ≤ 0.9`. -/
theorem risk_label_monotone_and_boundaries_witness :
    (riskFromProb (1/10)).rank ≤ (riskFromProb (9/10)).rank :=
  risk_label_monotone_and_boundaries.1 (1/10) (9/10) (by norm_num)

/-- Scenario A of the spec: sensor probability 0.9, no other modality
present. -/
def scenarioA : FusionState := { sensor_risk_score := 9/10 }

/-- C8 counterexample: with sensor 0.9 and every other modality absent, the
code fuses to `0.8/1.5 × 0.9 = 0.48` and labels it "medium", not
"critical". -/
theorem scenarioA_not_critical :
    fusedProb scenarioA = 12/25 ∧
    fusionRiskLabel scenarioA = "medium" ∧
    fusionRiskLabel scenarioA ≠ "critical" ∧
    riskFromProb (fusedProb scenarioA) = .medium := by
  have hfp : fusedProb scenarioA = 12/25 := by
    norm_num [fusedProb, scenarioA, normalizedWeight, totalWeight, nominalWeight,
      sensorScore, visionScore, historyScore, serviceAgeScore, transactionalScore]
  have hlab : fusionRiskLabel scenarioA = "medium" := by
    unfold fusionRiskLabel
    rw [hfp]
    norm_num [get_risk_threshold_label]
  refine ⟨hfp, hlab, ?_, ?_⟩
  · rw [hlab]; decide
  · rw [hfp]; norm_num [riskFromProb]

/-- C8 amended: Scenario A produces fused score 0.48 and label "medium";
the explanation's base sentence cites all five modalities (the sensor is
the only one with a non-zero score) and no extra clause fires. -/
theorem scenarioA_report :
    fusedProb scenarioA = 12/25 ∧
    fusionRiskLabel scenarioA = "medium" ∧
    explanationCitedModalities scenarioA = allModalities ∧
    explanationExtras scenarioA = [] ∧
    sensorScore scenarioA = 9/10 ∧ visionScore scenarioA = 0 ∧
    historyScore scenarioA = 0 ∧ serviceAgeScore scenarioA = 0 ∧
    transactionalScore scenarioA = 0 := by
  have hfp : fusedProb scenarioA = 12/25 := by
    norm_num [fusedProb, scenarioA, normalizedWeight, totalWeight, nominalWeight,
      sensorScore, visionScore, historyScore, serviceAgeScore, transactionalScore]
  have hlab : fusionRiskLabel scenarioA = "medium" := by
    unfold fusionRiskLabel
    rw [hfp]
    norm_num [get_risk_threshold_label]
  refine ⟨hfp, hlab, rfl, ?_, ?_, ?_, ?_, ?_, ?_⟩ <;>
    simp [explanationExtras, scenarioA, sensorScore, visionScore, historyScore,
      serviceAgeScore, transactionalScore]

/-- C5: a scheduled task is reported overdue iff
`(current − last_done) − interval > 0` (strict), `last_done` is the logged
hour-at-service or 0 when never logged, and the boundary case
`overdue_hours = 0` is not reported. -/
theorem service_age_overdue_characterization
    (current : Int) (tasks : List SchedTask) (lk : String → Option Int)
    (t : SchedTask) (ht : t ∈ tasks) :
    (overdueRecord current lk t ∈ serviceAgeOverdueTasks current tasks lk ↔
      0 < (current - (lk t.task_name).getD 0) - t.interval_hours) ∧
    ((current - (lk t.task_name).getD 0) - t.interval_hours = 0 →
      overdueRecord current lk t ∉ serviceAgeOverdueTasks current tasks lk) ∧
    (overdueRecord current lk t).last_done = (lk t.task_name).getD 0 ∧
    (overdueRecord current lk t).overdue_hours =
      (current - (overdueRecord current lk t).last_done) - t.interval_hours := by
  have hiff : overdueRecord current lk t ∈ serviceAgeOverdueTasks current tasks lk ↔
      0 < (current - (lk t.task_name).getD 0) - t.interval_hours := by
    constructor
    · intro hm
      simp only [serviceAgeOverdueTasks, List.mem_filterMap] at hm
      obtain ⟨t', _ht', heq⟩ := hm
      by_cases hgt : (current - lastDone lk t'.task_name) - t'.interval_hours > 0
      · have heq2 : overdueRecord current lk t' = overdueRecord current lk t := by
          simpa [hgt] using heq
        simp only [overdueRecord, OverdueTask.mk.injEq] at heq2
        obtain ⟨hname, -, hint, -, -⟩ := heq2
        simpa [lastDone, hname, hint] using hgt
      · simp [hgt] at heq
    · intro hgt
      simp only [serviceAgeOverdueTasks, List.mem_filterMap]
      exact ⟨t, ht, by simp [lastDone, hgt]⟩
  refine ⟨hiff, ?_, rfl, rfl⟩
  intro h0 hm
  have := hiff.mp hm
  omega

/-- Concrete log lookup for the C5 witness: every task last served at hour 30. -/
def lkWitness : String → Option Int := fun _ => some 30

/-- Concrete scheduled task for the C5 witness. -/
def taskWitness : SchedTask := { task_name := "oil_change", interval_hours := 40 }

/-- C5 witness: at current hour 100 the task is 30 hours overdue and is
reported. -/
theorem service_age_overdue_characterization_witness :
    overdueRecord 100 lkWitness taskWitness ∈
      serviceAgeOverdueTasks 100 [taskWitness] lkWitness :=
  ((service_age_overdue_characterization 100 [taskWitness] lkWitness taskWitness
      (by simp)).1).mpr (by norm_num [lkWitness, taskWitness])

/-- C9: the orchestrator's per-stage shallow merge never loses a key that
was present in the incoming state — in particular the two protected fields
`manual_context` and `anomaly_query` survive every stage. -/
theorem stage_merge_preserves_written_fields {α : Type}
    (state result : List (String × α)) :
    (dictHasKey state "manual_context" = true →
      dictHasKey (stageMerge state result) "manual_context" = true) ∧
    (dictHasKey state "anomaly_query" = true →
      dictHasKey (stageMerge state result) "anomaly_query" = true) ∧
    (∀ k, dictHasKey state k = true → dictHasKey (stageMerge state result) k = true) := by
  have hassign : ∀ (d : List (String × α)) (k k' : String) (v : α),
      dictHasKey d k = true → dictHasKey (dictAssign d k' v) k = true := by
    intro d k k' v
    induction d with
    | nil => intro h; simp [dictHasKey] at h
    | cons kv rest ih =>
      intro h
      obtain ⟨k0, v0⟩ := kv
      simp only [dictHasKey, List.any_cons, Bool.or_eq_true, decide_eq_true_eq] at h
      by_cases he : k0 = k'
      · simp only [dictAssign, if_pos he]
        simp only [dictHasKey, List.any_cons, Bool.or_eq_true, decide_eq_true_eq]
        exact h
      · simp only [dictAssign, if_neg he]
        simp only [dictHasKey, List.any_cons, Bool.or_eq_true, decide_eq_true_eq]
        rcases h with h | h
        · exact Or.inl h
        · exact Or.inr (ih h)
  have hupdate : ∀ (u d : List (String × α)) (k : String),
      dictHasKey d k = true → dictHasKey (dictUpdate d u) k = true := by
    intro u
    induction u with
    | nil => intro d k h; simpa [dictUpdate] using h
    | cons kv rest ih =>
      intro d k h
      have : dictUpdate d (kv :: rest) = dictUpdate (dictAssign d kv.1 kv.2) rest := by
        simp [dictUpdate]
      rw [this]
      exact ih _ k (hassign d k kv.1 kv.2 h)
  have hreassert : ∀ (st m : List (String × α)) (f k : String),
      dictHasKey m k = true → dictHasKey (reassertField st m f) k = true := by
    intro st m f k h
    unfold reassertField
    split_ifs with hc
    · cases hg : dictGet st f with
      | none => simpa using h
      | some v => exact hassign m k f v h
    · exact h
  have hall : ∀ k, dictHasKey state k = true →
      dictHasKey (stageMerge state result) k = true := by
    intro k h
    unfold stageMerge
    exact hreassert _ _ _ _ (hreassert _ _ _ _ (hupdate result state k h))
  exact ⟨hall "manual_context", hall "anomaly_query", hall⟩

/-- Concrete state for the C9 witness. -/
def stateWitness : List (String × Nat) := [("manual_context", 1), ("anomaly_query", 2)]

/-- Concrete stage result for the C9 witness: touches neither protected field. -/
def resultWitness : List (String × Nat) := [("fused_score", 3)]

/-- C9 witness: the theorem applied at a concrete state and stage result. -/
theorem stage_merge_preserves_written_fields_witness :
    dictHasKey (stageMerge stateWitness resultWitness) "manual_context" = true :=
  (stage_merge_preserves_written_fields stateWitness resultWitness).1 (by decide)

/-- C6: a sensor with fewer than 10 non-null samples gets `none` for
threshold, rolling mean and drift; with at least 10, all three are
populated. -/
theorem baseline_min_samples (column : List (Option ℚ)) :
    ((dropNulls column).length < 10 → sensorStats column = (none, none, none)) ∧
    (10 ≤ (dropNulls column).length →
      (sensorStats column).1.isSome ∧ ((sensorStats column).2.1).isSome ∧
      ((sensorStats column).2.2).isSome) := by
  constructor
  · intro h
    simp [sensorStats, h]
  · intro h
    simp [sensorStats, Nat.not_lt.mpr h]

/-- Nine non-null samples. -/
def colNine : List (Option ℚ) := List.replicate 9 (some 1)

/-- Ten non-null samples. -/
def colTen : List (Option ℚ) := List.replicate 10 (some 1)

/-- C6 witness: exactly 9 non-null samples give the empty statistics,
exactly 10 give populated ones. -/
theorem baseline_min_samples_witness :
    sensorStats colNine = (none, none, none) ∧ (sensorStats colTen).1.isSome :=
  ⟨(baseline_min_samples colNine).1 (by decide),
   ((baseline_min_samples colTen).2 (by decide)).1⟩

/-- C7: a constant historical series (sample std 0) has its global std
floored to 1, so the drift score is exactly `rolling_mean − global_mean`
and no division by zero occurs. -/
theorem constant_series_drift (c : ℚ) (n : ℕ) (hn : 10 ≤ n) :
    globalStdFloored (List.replicate n c) = 1 ∧
    driftScore (List.replicate n c) =
      (rollingMean (List.replicate n c) : ℝ) - (qmean (List.replicate n c) : ℝ) := by
  have hn0 : ((List.replicate n c).length : ℚ) ≠ 0 := by
    simp only [List.length_replicate]
    exact_mod_cast (by omega : n ≠ 0)
  have hm : qmean (List.replicate n c) = c := by
    unfold qmean
    rw [List.sum_replicate, nsmul_eq_mul, List.length_replicate]
    field_simp
  have hvar : sampleVariance (List.replicate n c) = 0 := by
    unfold sampleVariance
    rw [if_neg (by simp [List.length_replicate]; omega)]
    simp [hm]
  refine ⟨?_, ?_⟩
  · unfold globalStdFloored
    rw [hvar]
    simp
  · unfold driftScore globalStdFloored
    rw [hvar]
    simp

/-- C7 witness: the theorem at the constant series of ten 5s. -/
theorem constant_series_drift_witness :
    globalStdFloored (List.replicate 10 (5 : ℚ)) = 1 ∧
    driftScore (List.replicate 10 (5 : ℚ)) =
      (rollingMean (List.replicate 10 (5 : ℚ)) : ℝ) -
        (qmean (List.replicate 10 (5 : ℚ)) : ℝ) :=
  constant_series_drift 5 10 (by norm_num)

/-- C3 counterexample record: a string value whose text parses as a
number. -/
def numericStringRecord : List (Chars × TVal) := [(['a'], .vstr ['1'])]

/-- C3 counterexample: `decode(encode({"a": "1"}))` yields the int 1, not
the string "1" — values are not always reproduced exactly. -/
theorem codec_roundtrip_counterexample :
    decode (encode_dict numericStringRecord) = [(['a'], .vint 1)] ∧
    (decode (encode_dict numericStringRecord)).map Prod.snd ≠
      numericStringRecord.map Prod.snd := by
  refine ⟨rfl, ?_⟩
  rw [show decode (encode_dict numericStringRecord) = [(['a'], TVal.vint 1)] from rfl]
  intro h
  simp [numericStringRecord] at h

/-- C3 (amended): on records whose scalars are ints and well-behaved
strings (non-empty printable ASCII, free of the reserved characters, no
surrounding whitespace, not parseable as a number), whose lists have at
least two such scalars, with one nested level, no booleans, no empty
values and no key-alias collisions, the round trip reproduces every value
verbatim; only key names (outer and nested) are re-aliased. -/
theorem codec_roundtrip_good (r : List (Chars × TVal))
    (hr : goodRecord r = true) (hb : boolFreeRecord r = true) :
    decode (encode_dict r) = r.map fun kv => (roundKey kv.1, preserveVal kv.2) := by
  rw [decode_encode_good hr]
  unfold roundRecord
  apply List.map_congr_left
  intro kv hkv
  have hbv : boolFreeVal kv.2 = true := by
    have hall : ∀ x ∈ r, boolFreeVal x.2 = true := by
      simpa [boolFreeRecord, List.all_eq_true] using hb
    exact hall kv hkv
  rw [roundVal_eq_preserve hbv]

/-- Concrete record for the C3 witness: a string, a two-element int list
and one nested record. -/
def roundtripWitnessRecord : List (Chars × TVal) :=
  [("pump_id".toList, .vstr "p17".toList),
   ("vals".toList, .vlist [.vint 3, .vint 4]),
   ("meta".toList, .vdict [("unit".toList, .vstr "mm/s".toList)])]

/-- C3 witness: the amended round trip at a concrete record. -/
theorem codec_roundtrip_good_witness :
    decode (encode_dict roundtripWitnessRecord) =
      roundtripWitnessRecord.map fun kv => (roundKey kv.1, preserveVal kv.2) :=
  codec_roundtrip_good roundtripWitnessRecord (by decide) (by decide)

/-- C4 counterexample: on the unbalanced-bracket input `"A:(B:1"`, decode
raises nothing and returns a complete record, keeping the unbalanced text
as a plain string value — there is no `DecodeError` in the codec. -/
theorem decode_unbalanced_counterexample :
    decode "A:(B:1".toList = [(['a'], .vstr "(B:1".toList)] := rfl

/-- C4 (amended): for any value text opening an unmatched bracket (no
further bracket/separator characters, no trailing whitespace), decode
succeeds and returns the text as a plain string value under the decoded
key. -/
theorem decode_unbalanced_keeps_string (t : Chars)
    (hfree : ∀ c ∈ t, c ≠ '(' ∧ c ≠ ')' ∧ c ≠ '|' ∧ c ≠ '~')
    (hlast : (t.getLast?.all fun c => !isPyWS c) = true) :
    decode ('A' :: ':' :: '(' :: t) = [(['a'], .vstr ('(' :: t))] := by
  have hstripv : pyStrip ('(' :: t) = '(' :: t := by
    apply pyStrip_eq_self
    · rw [List.head?_cons]; decide
    · cases t with
      | nil => decide
      | cons c t' =>
        rw [getLast?_cons_of_ne_nil' (by simp)]
        exact hlast
  have hsfull : pyStrip ('A' :: ':' :: '(' :: t) = 'A' :: ':' :: '(' :: t := by
    apply pyStrip_eq_self
    · rw [List.head?_cons]; decide
    · cases t with
      | nil => decide
      | cons c t' =>
        rw [getLast?_cons_of_ne_nil' (by simp), getLast?_cons_of_ne_nil' (by simp),
          getLast?_cons_of_ne_nil' (by simp)]
        exact hlast
  have hsplit : split_respecting_nesting ('A' :: ':' :: '(' :: t) =
      [('A' :: ':' :: '(' :: t)] := by
    unfold split_respecting_nesting
    have s1 : splitRN (['A', ':'] ++ ('(' :: t)) 0 [] = splitRN ('(' :: t) 0 ['A', ':'] :=
      splitRN_skip (by decide) _ 0 []
    rw [show ('A' :: ':' :: '(' :: t) = ['A', ':'] ++ ('(' :: t) from rfl, s1]
    simp only [splitRN]
    rw [if_pos (by simp)]
    rw [show ((['A', ':'] ++ ['(']) : Chars) = ['A', ':', '('] from rfl]
    rw [show splitRN t ((0 : Int) + 1) ['A', ':', '('] =
      splitRN (t ++ []) ((0 : Int) + 1) ['A', ':', '('] by rw [List.append_nil]]
    rw [splitRN_skip_depth (fun c hc => ⟨(hfree c hc).1, (hfree c hc).2.1⟩)
      [] (0 + 1) ['A', ':', '('] (by omega)]
    simp only [splitRN]
    rw [if_neg (by simp)]
    simp
  have hdv : ∀ dec, decode_value dec ('(' :: t) = .vstr ('(' :: t) := by
    intro dec
    unfold decode_value
    rw [if_neg (by simp)]
    rw [if_neg (by
      rintro ⟨-, hl⟩
      cases t with
      | nil => exact absurd hl (by decide)
      | cons c t' =>
        rw [getLast?_cons_of_ne_nil' (by simp)] at hl
        exact (hfree _ (List.mem_of_mem_getLast? hl)).2.1 rfl)]
    rw [if_neg (by
      intro hcon
      rcases List.mem_cons.mp (List.elem_iff.mp hcon) with he | hm
      · exact absurd he (by decide)
      · exact (hfree _ hm).2.2.2 rfl)]
    unfold try_numeric
    rw [pyIntParse_paren hstripv]
    rw [pyFloatParseable_paren hstripv]
    rfl
  unfold decode
  simp only [decodeF]
  rw [if_neg (by rw [hsfull]; simp)]
  rw [hsplit]
  simp only [List.foldl_cons, List.foldl_nil]
  rw [show ('A' :: ':' :: '(' :: t) = ['A'] ++ ':' :: ('(' :: t) from rfl,
    breakColon_chunk (by decide)]
  show dictAssign [] (pascal_to_snake (pyStrip ['A'])) _ = _
  rw [hstripv, hdv]
  rfl

/-- C4 witness: the amended theorem at the concrete tail `"B:1"`. -/
theorem decode_unbalanced_keeps_string_witness :
    decode ('A' :: ':' :: '(' :: "B:1".toList) =
      [(['a'], .vstr ('(' :: "B:1".toList))] :=
  decode_unbalanced_keeps_string "B:1".toList (by decide) (by decide)

/-- C10 counterexample record: the keys "a" and "A" share the alias "A",
and the colliding later pair overwrites the boolean. -/
def collidingBoolRecord : List (Chars × TVal) := [(['a'], .vbool true), (['A'], .vint 5)]

/-- C10 counterexample: a record containing a boolean whose round trip does
NOT return that value as 1 or 0 — the alias collision drops it entirely. -/
theorem codec_bool_collision_counterexample :
    encode_dict collidingBoolRecord = "A:1|A:5".toList ∧
    decode (encode_dict collidingBoolRecord) = [(['a'], .vint 5)] := ⟨rfl, rfl⟩

/-- C10 (amended): the encoder strips exactly None/""/[]/{} and keeps 0 and
the booleans (encoded as "1"/"0"); on collision-free well-formed records
the round trip returns every boolean as the integer 1 or 0. -/
theorem codec_bool_as_int (r : List (Chars × TVal)) (hr : goodRecord r = true) :
    (encode_value (.vbool true) = ['1'] ∧ encode_value (.vbool false) = ['0']) ∧
    (∀ d : List (Chars × TVal),
      encodeEntries d = encodeEntries (d.filter fun kv => !isEmptyVal kv.2)) ∧
    (isEmptyVal (.vint 0) = false ∧ isEmptyVal (.vbool true) = false ∧
     isEmptyVal (.vbool false) = false ∧ isEmptyVal .vnone = true ∧
     isEmptyVal (.vstr []) = true ∧ isEmptyVal (.vlist []) = true ∧
     isEmptyVal (.vdict []) = true) ∧
    decode (encode_dict r) = roundRecord r ∧
    (∀ kv ∈ r, ∀ b : Bool, kv.2 = .vbool b →
      (roundKey kv.1, .vint (if b then 1 else 0)) ∈ decode (encode_dict r)) := by
  refine ⟨⟨rfl, rfl⟩, encodeEntries_filter, ⟨rfl, rfl, rfl, rfl, rfl, rfl, rfl⟩,
    decode_encode_good hr, ?_⟩
  intro kv hkv b hb
  rw [decode_encode_good hr]
  unfold roundRecord
  refine List.mem_map.mpr ⟨kv, hkv, ?_⟩
  rw [hb]
  rfl

/-- Concrete record for the C10 witness: a boolean and the integer 0 (which
the encoder keeps). -/
def boolWitnessRecord : List (Chars × TVal) :=
  [("ok".toList, .vbool true), ("n".toList, .vint 0)]

/-- C10 witness: the boolean of `boolWitnessRecord` comes back as the
integer 1. -/
theorem codec_bool_as_int_witness :
    (roundKey "ok".toList, TVal.vint 1) ∈ decode (encode_dict boolWitnessRecord) :=
  (codec_bool_as_int boolWitnessRecord (by decide)).2.2.2.2
    ("ok".toList, .vbool true) (by simp [boolWitnessRecord]) true rfl

end PMA
